import Mathlib

/-!
Verification development for the roster command-hierarchy core of the
gcacw-printable-rosters repository.

The TypeScript source is shallowly embedded:

* `Roster.Unit` and `Roster.CommandGroup` mirror the record types of
  `web/src/types.ts` and `rosterUtils.ts` (optional fields become `Option`).
* JavaScript objects used as string-keyed dictionaries (`leaderByCommand`,
  `unitsByCommand`, `divToCorps`) become association lists with
  first-insertion key order and in-place value overwrite (`upsert`,
  `upsertAppend`), matching `Object.entries` enumeration order.
* `Array.prototype.sort` (stable since ES2019) is modelled by a stable
  insertion sort `jsSortBy` driven by the source's integer comparator.
  For a consistent comparator this is exactly the sort the language
  specification determines; where the comparator is not consistent,
  ECMA-262 leaves the order implementation-defined and the model fixes
  one conforming behaviour (which we also checked against V8's binary
  insertion for the concrete inputs used below).
* `String.prototype.localeCompare` on leader names is modelled by
  code-point comparison; all concrete inputs below use ASCII names for
  which the two agree.
* `Math.ceil` on the splitter's `number` arithmetic is Nat ceiling
  division for positive divisors; the JavaScript behaviour at
  `maxUnitsPerColumn = 0` (division by zero yields `Infinity`, so the
  column loop never terminates) is modelled by the `none` result of an
  `Option`-valued function, and at negative values (`Math.ceil` of a
  negative quotient is `≤ 0`, so the loop body never runs) by `some []`.

There are two copies of `buildCommandHierarchy` in the repository: the
one in `web/src/utils/rosterUtils.ts` and the one in the unnamed source
file (part_021).  They are textually identical except that the latter
adds the cavalry-inference step and a final `sortCommandGroups` pass, so
the common parts are embedded once and shared by
`Roster.buildCommandHierarchy` (part_021) and
`Roster.buildCommandHierarchyWeb` (rosterUtils.ts).
-/

namespace Roster

/-- `Unit` record from `web/src/types.ts` (the fields the hierarchy code
reads are `name`, `size`, `command`, `type`; the rest are carried
opaquely). `type` is a reserved word in Lean, hence `type_`. -/
structure Unit where
  name : String
  size : String
  command : String
  type_ : String
  manpowerValue : String := ""
  hexLocation : String := ""
  notes : List String := []
deriving DecidableEq

/-- `CommandGroup` from `rosterUtils.ts`; optional TypeScript fields
(`parentCommand?`, `columnIndex?`, `totalColumns?`) become `Option`. -/
structure CommandGroup where
  leader : Option Unit
  commandCode : String
  displayName : String
  size : String
  units : List Unit
  subgroups : List CommandGroup
  parentCommand : Option String := none
  columnIndex : Option Nat := none
  totalColumns : Option Nat := none

/-- Insert-or-overwrite for a JS object used as a dictionary: an existing
key keeps its first-insertion position and gets the new value; a new key
is appended at the end (`Object.entries` enumeration order). -/
def upsert {α : Type} : List (String × α) → String → α → List (String × α)
  | [], k, v => [(k, v)]
  | (k', v') :: rest, k, v =>
    if k' = k then (k, v) :: rest else (k', v') :: upsert rest k v

/-- `unitsByCommand[cmd].push(unit)` with auto-creation of the entry. -/
def upsertAppend : List (String × List Unit) → String → Unit → List (String × List Unit)
  | [], k, v => [(k, [v])]
  | (k', vs) :: rest, k, v =>
    if k' = k then (k, vs ++ [v]) :: rest else (k', vs) :: upsertAppend rest k v

/-- Stable insertion into a list already ordered by the comparator `cmp`
(negative/zero means "not after"). -/
def insertBy {α : Type} (cmp : α → α → Int) (x : α) : List α → List α
  | [] => [x]
  | h :: t => if cmp x h ≤ 0 then x :: h :: t else h :: insertBy cmp x t

/-- Stable sort by an integer comparator, modelling the (stable)
`Array.prototype.sort`; for a consistent comparator this output is the
one ECMA-262 prescribes. -/
def jsSortBy {α : Type} (cmp : α → α → Int) (l : List α) : List α :=
  l.foldr (insertBy cmp) []

/-- `String.prototype.includes` on the underlying character lists. -/
def charsContain (sub : List Char) : List Char → Bool
  | [] => sub.isEmpty
  | h :: t => sub.isPrefixOf (h :: t) || charsContain sub t

/-- `String.prototype.endsWith` on the underlying character lists. -/
def charsEndWith (sub s : List Char) : Bool :=
  sub.reverse.isPrefixOf s.reverse

/-- `isSubordinateCommand` from `rosterUtils.ts` / part_021:
`childCmd.includes("-" + parentCmd) || childCmd.endsWith("-" + parentCmd)`. -/
def isSubordinateCommand (childCmd parentCmd : String) : Bool :=
  charsContain ("-" ++ parentCmd).data childCmd.data ||
    charsEndWith ("-" ++ parentCmd).data childCmd.data

/-- The size-priority table of the leader sort in `buildCommandHierarchy`
(`sizePriority[size] ?? 5`). -/
def sizePriority (s : String) : Nat :=
  if s = "Army" then 0
  else if s = "District" then 1
  else if s = "Corps" then 2
  else if s = "Div" then 3
  else if s = "Brig" then 4
  else 5

/-- Lexicographic code-point order on character lists. -/
def charsLt : List Char → List Char → Bool
  | [], [] => false
  | [], _ :: _ => true
  | _ :: _, [] => false
  | a :: as, b :: bs => if a = b then charsLt as bs else decide (a < b)

/-- Code-point string comparison standing in for `localeCompare`. -/
def strCmp (a b : String) : Int :=
  if a = b then 0 else if charsLt a.data b.data then -1 else 1

/-- The leader comparator of `buildCommandHierarchy` step 4:
size priority, then name. -/
def leaderCmp (a b : Unit) : Int :=
  if sizePriority a.size = sizePriority b.size then strCmp a.name b.name
  else ((sizePriority a.size : Int) - (sizePriority b.size : Int))

/-- `leaders.filter(u => u.type === "Ldr")`. -/
def leadersOf (units : List Unit) : List Unit :=
  units.filter (fun u => u.type_ = "Ldr")

/-- `units.filter(u => u.type !== "Ldr")`. -/
def combatUnitsOf (units : List Unit) : List Unit :=
  units.filter (fun u => u.type_ ≠ "Ldr")

/-- `leaderByCommand`: command code → leader, skipping the `"-"`/`"—"`
sentinels; later leaders in input order overwrite earlier ones. -/
def leaderByCommand (units : List Unit) : List (String × Unit) :=
  (leadersOf units).foldl
    (fun m l => if l.command ≠ "-" ∧ l.command ≠ "—" then upsert m l.command l else m) []

/-- `unitsByCommand`: command code → combat units sharing it, in input
order; `unit.command || "-"` maps the empty string to `"-"`. -/
def unitsByCommand (units : List Unit) : List (String × List Unit) :=
  (combatUnitsOf units).foldl
    (fun m u => upsertAppend m (if u.command = "" then "-" else u.command) u) []

/-- `sortedLeaders`: leaders ordered by size priority then name. -/
def sortedLeaders (units : List Unit) : List Unit :=
  jsSortBy leaderCmp (leadersOf units)

/-- `corpsLeaders = sortedLeaders.filter(l => l.size === "Corps")`. -/
def corpsLeaders (units : List Unit) : List Unit :=
  (sortedLeaders units).filter (fun l => l.size = "Corps")

/-- `divLeaders = sortedLeaders.filter(l => l.size === "Div")`. -/
def divLeaders (units : List Unit) : List Unit :=
  (sortedLeaders units).filter (fun l => l.size = "Div")

/-- The dash-suffix pass building `divToCorps`: for each corps leader,
each div leader whose code is textually subordinate gets (re)mapped. -/
def divToCorpsBase (units : List Unit) : List (String × String) :=
  (corpsLeaders units).foldl
    (fun m cl =>
      (divLeaders units).foldl
        (fun m' dl =>
          if isSubordinateCommand dl.command cl.command then upsert m' dl.command cl.command
          else m') m)
    []

/-- The cavalry-inference extension (part_021 only): if a Corps leader
with code exactly `"Cav"` exists, every div leader whose mapping is still
falsy and whose code's units contain a `"Cav"`-typed unit is mapped to
`"Cav"`.  (`if (divToCorps[divCmd]) continue` is a JS truthiness test, so
an empty-string mapping does not block the inference.) -/
def applyCavalryInference (units : List Unit) (d2c : List (String × String)) :
    List (String × String) :=
  match (corpsLeaders units).find? (fun l => l.command = "Cav") with
  | none => d2c
  | some _ =>
    (divLeaders units).foldl
      (fun m dl =>
        if (m.lookup dl.command).getD "" ≠ "" then m
        else
          let divUnits := ((unitsByCommand units).lookup dl.command).getD []
          if divUnits.any (fun u => u.type_ = "Cav") then upsert m dl.command "Cav"
          else m)
      d2c

/-- Mutable state of the main leader loop: the groups pushed so far and
the `processedCommands` set (membership-only, modelled as a list). -/
structure BuildState where
  groups : List CommandGroup
  processed : List String

/-- The subgroup-building inner loop of the Corps branch: one subgroup
per subordinate division code that has a `leaderByCommand` entry; codes
without one are skipped *before* being marked processed.  (The source's
`if (divUnits.length > 0 || divLeader)` guard is always true at this
point because `divLeader` is a non-null object, so the push is
unconditional here.) -/
def buildDivSubgroups (lByC : List (String × Unit)) (uByC : List (String × List Unit))
    (parentCmd : String) :
    List String → List String → List CommandGroup × List String
  | [], processed => ([], processed)
  | divCmd :: rest, processed =>
    match lByC.lookup divCmd with
    | none => buildDivSubgroups lByC uByC parentCmd rest processed
    | some divLeader =>
      let divUnits := (uByC.lookup divCmd).getD []
      let sg : CommandGroup :=
        { leader := some divLeader
          commandCode := divCmd
          displayName := divCmd ++ " — " ++ divLeader.name
          size := divLeader.size
          units := divUnits
          subgroups := []
          parentCommand := some parentCmd }
      let r := buildDivSubgroups lByC uByC parentCmd rest (divCmd :: processed)
      (sg :: r.1, r.2)

/-- The subordinate-unit scan of the standard branch: units of every
other code textually subordinate to `cmd` that has no leader of its own
are merged (and the code marked processed); note the source does *not*
consult `processedCommands` here. -/
def collectSubordinateUnits (lByC : List (String × Unit)) (cmd : String) :
    List (String × List Unit) → List String → List Unit × List String
  | [], processed => ([], processed)
  | (otherCmd, otherUnits) :: rest, processed =>
    if isSubordinateCommand otherCmd cmd ∧ (lByC.lookup otherCmd).isNone then
      let r := collectSubordinateUnits lByC cmd rest (otherCmd :: processed)
      (otherUnits ++ r.1, r.2)
    else collectSubordinateUnits lByC cmd rest processed

/-- One iteration of the main loop of `buildCommandHierarchy` over a
sorted leader. -/
def stepLeader (lByC : List (String × Unit)) (uByC : List (String × List Unit))
    (d2c : List (String × String)) (st : BuildState) (leader : Unit) : BuildState :=
  let cmd := leader.command
  if cmd = "-" ∨ cmd = "—" then st
  else if leader.size = "Army" ∨ leader.size = "District" then st
  else if cmd ∈ st.processed then st
  else
    let processed₁ := cmd :: st.processed
    let subordinateDivCmds := (d2c.filter (fun p => p.2 = cmd)).map (fun p => p.1)
    if leader.size = "Corps" ∧ subordinateDivCmds ≠ [] then
      let r := buildDivSubgroups lByC uByC cmd subordinateDivCmds processed₁
      let corpsDirectUnits := (uByC.lookup cmd).getD []
      { groups := st.groups ++
          [{ leader := some leader
             commandCode := cmd
             displayName := cmd ++ " — " ++ leader.name
             size := leader.size
             units := corpsDirectUnits
             subgroups := r.1 }]
        processed := r.2 }
    else if leader.size = "Div" ∧ (d2c.lookup cmd).getD "" ≠ "" then
      { st with processed := processed₁ }
    else
      let directUnits := (uByC.lookup cmd).getD []
      let r := collectSubordinateUnits lByC cmd uByC processed₁
      let allUnits := directUnits ++ r.1
      if allUnits ≠ [] then
        { groups := st.groups ++
            [{ leader := some leader
               commandCode := cmd
               displayName := cmd ++ " — " ++ leader.name
               size := leader.size
               units := allUnits
               subgroups := [] }]
          processed := r.2 }
      else { st with processed := r.2 }

/-- The trailing loop of `buildCommandHierarchy`: one leaderless group
per remaining unprocessed command code with units. -/
def addLeaderlessGroups (st : BuildState) (uByC : List (String × List Unit)) :
    List CommandGroup :=
  uByC.foldl
    (fun gs p =>
      if p.1 ∈ st.processed ∨ p.2 = [] then gs
      else gs ++
        [{ leader := none
           commandCode := p.1
           displayName := if p.1 = "-" ∨ p.1 = "—" then "Independent" else p.1
           size := ""
           units := p.2
           subgroups := [] }])
    st.groups

/-- The part of `buildCommandHierarchy` common to `rosterUtils.ts` and
part_021, parameterised by the (possibly inference-extended)
`divToCorps` map. -/
def buildGroupsCore (units : List Unit) (d2c : List (String × String)) :
    List CommandGroup :=
  let lByC := leaderByCommand units
  let uByC := unitsByCommand units
  let st := (sortedLeaders units).foldl (stepLeader lByC uByC d2c) ⟨[], []⟩
  addLeaderlessGroups st uByC

/-- Whether a group is cavalry for the sort: at least one unit and all
units of type `"Cav"`. -/
def isCavalryGroup (g : CommandGroup) : Bool :=
  decide (g.units.length > 0) && g.units.all (fun u => u.type_ = "Cav")

/-- `a.leader?.size || ""`. -/
def leaderSizeOf (g : CommandGroup) : String :=
  (g.leader.map (fun l => l.size)).getD ""

/-- The comparator of `sortCommandGroups` (part_021): leader presence,
then cavalry classification, then Div-before-Corps within cavalry
groups that both have leaders. -/
def cmpGroups (a b : CommandGroup) : Int :=
  let aIsCavalry := isCavalryGroup a
  let bIsCavalry := isCavalryGroup b
  let aHasLeader := a.leader.isSome
  let bHasLeader := b.leader.isSome
  let aLeaderSize := leaderSizeOf a
  let bLeaderSize := leaderSizeOf b
  if aHasLeader ≠ bHasLeader then (if aHasLeader then -1 else 1)
  else if aIsCavalry ≠ bIsCavalry then (if aIsCavalry then 1 else -1)
  else if aIsCavalry ∧ bIsCavalry ∧ aHasLeader ∧ bHasLeader then
    if aLeaderSize = "Div" ∧ bLeaderSize = "Corps" then -1
    else if aLeaderSize = "Corps" ∧ bLeaderSize = "Div" then 1
    else 0
  else 0

/-- `sortCommandGroups` from part_021 (`[...groups].sort(...)`). -/
def sortCommandGroups (groups : List CommandGroup) : List CommandGroup :=
  jsSortBy cmpGroups groups

/-- `buildCommandHierarchy` as in the unnamed source file part_021:
with the cavalry-inference step and the final sorting pass. -/
def buildCommandHierarchy (units : List Unit) : List CommandGroup :=
  sortCommandGroups
    (buildGroupsCore units (applyCavalryInference units (divToCorpsBase units)))

/-- `buildCommandHierarchy` as in `web/src/utils/rosterUtils.ts`:
no cavalry inference, no final sort. -/
def buildCommandHierarchyWeb (units : List Unit) : List CommandGroup :=
  buildGroupsCore units (divToCorpsBase units)

/-- `splitGroupIntoColumns`.  The result is `none` exactly when the
JavaScript original does not terminate: `maxUnitsPerColumn = 0` with a
non-empty unit list makes `numColumns = Math.ceil(n / 0) = Infinity`, so
the column loop runs forever.  For negative values `numColumns ≤ 0` and
the loop body never runs, giving `[]`. -/
def splitGroupIntoColumns (group : CommandGroup) (maxUnitsPerColumn : Int) :
    Option (List CommandGroup) :=
  let unitCount := group.units.length
  if (unitCount : Int) ≤ maxUnitsPerColumn then some [group]
  else if maxUnitsPerColumn = 0 then none
  else if maxUnitsPerColumn < 0 then some []
  else
    let m := maxUnitsPerColumn.toNat
    let numColumns := (unitCount + m - 1) / m
    let unitsPerColumn := (unitCount + numColumns - 1) / numColumns
    some ((List.range numColumns).map (fun i =>
      { group with
        units := (group.units.drop (i * unitsPerColumn)).take unitsPerColumn
        leader := if i = 0 then group.leader else none
        columnIndex := some (i + 1)
        totalColumns := some numColumns }))

/-- `splitMain[0] = {...splitMain[0], subgroups}` followed by emptying
the subgroups of the later chunks.  When `splitMain` is empty the
JavaScript spread of `undefined` fabricates a degenerate object whose
only meaningful field is `subgroups` (its other fields read back as
`undefined`); that object is modelled with empty/none defaults. -/
def setHeadSubgroups (splitMain subs : List CommandGroup) : List CommandGroup :=
  match splitMain with
  | [] =>
    [{ leader := none, commandCode := "", displayName := "", size := ""
       units := [], subgroups := subs }]
  | h :: t =>
    { h with subgroups := subs } :: t.map (fun c => { c with subgroups := [] })

/-- The inner loop `for (const subgroup of group.subgroups)
splitSubgroups.push(...splitGroupIntoColumns(subgroup, max))`. -/
def splitSubgroupsAll (maxUnitsPerColumn : Int) : List CommandGroup → Option (List CommandGroup)
  | [] => some []
  | sg :: rest => do
    let s ← splitGroupIntoColumns sg maxUnitsPerColumn
    let r ← splitSubgroupsAll maxUnitsPerColumn rest
    pure (s ++ r)

/-- The loop body of `splitLargeGroups` for one group. -/
def processGroup (group : CommandGroup) (maxUnitsPerColumn : Int) :
    Option (List CommandGroup) := do
  let splitMain ← splitGroupIntoColumns group maxUnitsPerColumn
  if group.subgroups.length > 0 then
    let splitSubgroups ← splitSubgroupsAll maxUnitsPerColumn group.subgroups
    pure (setHeadSubgroups splitMain splitSubgroups)
  else
    pure splitMain

/-- `splitLargeGroups`: concatenation of the per-group results. -/
def splitLargeGroups (groups : List CommandGroup) (maxUnitsPerColumn : Int) :
    Option (List CommandGroup) :=
  match groups with
  | [] => some []
  | g :: rest => do
    let chunks ← processGroup g maxUnitsPerColumn
    let restChunks ← splitLargeGroups rest maxUnitsPerColumn
    pure (chunks ++ restChunks)

/-- All `units` arrays of the pre-split forest, top-level groups and
their subgroups, flattened in order. -/
def forestUnits (groups : List CommandGroup) : List Unit :=
  groups.flatMap (fun g => g.units ++ g.subgroups.flatMap (fun sg => sg.units))

/-- Numeric sort key whose order agrees with `cmpGroups` whenever every
cavalry group with a leader has leader size `"Div"` or `"Corps"`. -/
def groupKeyNat (g : CommandGroup) : Nat :=
  (if g.leader.isSome then 0 else 4) + (if isCavalryGroup g then 2 else 0) +
    (if isCavalryGroup g ∧ g.leader.isSome ∧ leaderSizeOf g = "Corps" then 1 else 0)

/-! ### Concrete inputs used by the witnesses and counterexamples -/

/-- Shorthand for a leader counter. -/
def mkLdr (n s c : String) : Unit :=
  { name := n, size := s, command := c, type_ := "Ldr" }

/-- Shorthand for a combat counter. -/
def mkU (n c t : String) : Unit :=
  { name := n, size := "Brig", command := c, type_ := t }

/-- Shorthand for a leaderless command group with the given units. -/
def mkGroup (code : String) (us : List Unit) : CommandGroup :=
  { leader := none, commandCode := code, displayName := code, size := ""
    units := us, subgroups := [] }

/-- A unit whose command code is textually subordinate to the codes of
two different leaders, neither code having a leader of its own. -/
def c1Input : List Unit :=
  [mkLdr "A" "Brig" "B", mkLdr "Bb" "Brig" "B-C", mkU "u" "A-B-C" "Inf"]

/-- A leaderless thirteen-unit group. -/
def c2Group : CommandGroup :=
  mkGroup "X" ((List.range 13).map (fun i => mkU (toString i) "X" "Inf"))

/-- A three-unit group led by a brigade leader. -/
def c3Group : CommandGroup :=
  { leader := some (mkLdr "L" "Brig" "Y"), commandCode := "Y", displayName := "Y"
    size := "Brig", units := [mkU "a" "Y" "Inf", mkU "b" "Y" "Inf", mkU "c" "Y" "Inf"]
    subgroups := [] }

/-- A cavalry corps, a division leader whose command is the `"-"`
sentinel, and an independent cavalry unit. -/
def c4CounterInput : List Unit :=
  [mkLdr "S" "Corps" "Cav", mkLdr "D" "Div" "-", mkU "cav1" "" "Cav"]

/-- A cavalry corps, a division with the non-dash code `"WL"`, and a
cavalry unit under `"WL"`. -/
def c4WitnessInput : List Unit :=
  [mkLdr "S" "Corps" "Cav", mkLdr "D" "Div" "WL", mkU "cav1" "WL" "Cav"]

/-- An all-cavalry group with a leader of the given size. -/
def mkCavGroup (code ldrSize : String) : CommandGroup :=
  { leader := some (mkLdr ("L" ++ code) ldrSize code), commandCode := code
    displayName := code, size := ldrSize, units := [mkU ("u" ++ code) code "Cav"]
    subgroups := [] }

/-- Cavalry groups whose leader sizes are Corps, Brig, Brig, Div: the
comparator of `sortCommandGroups` is not transitive on these. -/
def c5CounterGroups : List CommandGroup :=
  [mkCavGroup "c" "Corps", mkCavGroup "b1" "Brig", mkCavGroup "b2" "Brig",
    mkCavGroup "d" "Div"]

/-- A mixed sibling level: leaderless infantry, cavalry corps, cavalry
division, infantry with leader. -/
def c5WitnessGroups : List CommandGroup :=
  [mkGroup "Z" [mkU "z" "Z" "Inf"], mkCavGroup "c" "Corps", mkCavGroup "d" "Div",
    { leader := some (mkLdr "I" "Brig" "I"), commandCode := "I", displayName := "I"
      size := "Brig", units := [mkU "i" "I" "Inf"], subgroups := [] }]

/-- A leaderless two-unit group (its split has no leader-bearing chunk). -/
def c6CounterGroup : CommandGroup :=
  mkGroup "X" [mkU "a" "X" "Inf", mkU "b" "X" "Inf"]

/-- Two leaders claiming the same command code `"I"`. -/
def c7Input : List Unit :=
  [mkLdr "A" "Brig" "I", mkLdr "Z" "Brig" "I", mkU "u1" "I" "Inf"]

/-- A corps-style group with three direct units and one two-unit
subgroup. -/
def c8Group : CommandGroup :=
  { leader := some (mkLdr "K" "Corps" "K"), commandCode := "K", displayName := "K"
    size := "Corps", units := [mkU "a" "K" "Inf", mkU "b" "K" "Inf", mkU "c" "K" "Inf"]
    subgroups := [mkGroup "K-1" [mkU "d" "K-1" "Inf", mkU "e" "K-1" "Inf"]] }

/-- A one-unit group: splitting it with `maxUnitsPerColumn = 0` makes the
JavaScript column loop diverge. -/
def c9Group : CommandGroup :=
  mkGroup "X" [mkU "a" "X" "Inf"]

/-- A cavalry brigade-led group sorts after an infantry one in part_021
but keeps input order in the web implementation. -/
def c10CounterInput : List Unit :=
  [mkLdr "A" "Brig" "C", mkU "cav1" "C" "Cav", mkLdr "B" "Brig" "D", mkU "inf1" "D" "Inf"]

/-- An input with no Corps-level leader at all (so no `"Cav"` corps). -/
def c10WitnessInput : List Unit :=
  [mkLdr "A" "Brig" "C", mkU "cav1" "C" "Cav", mkLdr "B" "Brig" "D", mkU "inf1" "D" "Inf",
    mkLdr "E" "Div" "D-C"]

/-- Invariant of the main leader loop: pushed groups carry pairwise
distinct command codes, every pushed code is in `processedCommands`, and
a pushed group's leader (when present) carries the group's code. -/
def StepInv (st : BuildState) : Prop :=
  st.groups.Pairwise (fun a b => a.commandCode ≠ b.commandCode) ∧
  (∀ g ∈ st.groups, g.commandCode ∈ st.processed) ∧
  (∀ g ∈ st.groups, ∀ l, g.leader = some l → l.command = g.commandCode)

/-- One iteration of the cavalry-inference loop (the loop body of
`applyCavalryInference`, named for the proofs below). -/
@[reducible] def cavInferStep (units : List Unit) (m : List (String × String))
    (dl : Unit) : List (String × String) :=
  if (m.lookup dl.command).getD "" ≠ "" then m
  else
    if (((unitsByCommand units).lookup dl.command).getD []).any
        (fun u => u.type_ = "Cav") then
      upsert m dl.command "Cav"
    else m

/-! ### Generic facts about the stable-sort model -/

theorem insertBy_perm {α : Type} (cmp : α → α → Int) (x : α) (l : List α) :
    (insertBy cmp x l).Perm (x :: l) := by
  induction l with
  | nil => exact List.Perm.refl _
  | cons h t ih =>
    by_cases hc : cmp x h ≤ 0
    · simp [insertBy, hc]
    · simp only [insertBy, if_neg hc]
      exact ((ih.cons h).trans (List.Perm.swap x h t)).symm.symm

theorem jsSortBy_perm {α : Type} (cmp : α → α → Int) (l : List α) :
    (jsSortBy cmp l).Perm l := by
  induction l with
  | nil => exact List.Perm.refl _
  | cons h t ih =>
    exact (insertBy_perm cmp h (jsSortBy cmp t)).trans (ih.cons h)

theorem mem_jsSortBy {α : Type} {cmp : α → α → Int} {l : List α} {a : α}
    (h : a ∈ jsSortBy cmp l) : a ∈ l :=
  (jsSortBy_perm cmp l).mem_iff.mp h

theorem mem_insertBy {α : Type} {cmp : α → α → Int} {x a : α} {l : List α}
    (h : a ∈ insertBy cmp x l) : a = x ∨ a ∈ l := by
  have := (insertBy_perm cmp x l).mem_iff.mp h
  simpa using this

theorem insertBy_pairwise {α : Type} {cmp : α → α → Int} {R : α → α → Prop}
    (htrans : ∀ a b c, R a b → R b c → R a c) {x : α} {s : List α}
    (hs : s.Pairwise R)
    (hx1 : ∀ b ∈ s, cmp x b ≤ 0 → R x b)
    (hx2 : ∀ b ∈ s, ¬cmp x b ≤ 0 → R b x) :
    (insertBy cmp x s).Pairwise R := by
  induction s with
  | nil => simp [insertBy]
  | cons h t ih =>
    by_cases hc : cmp x h ≤ 0
    · simp only [insertBy, if_pos hc]
      refine List.Pairwise.cons ?_ hs
      intro b hb
      rcases List.mem_cons.mp hb with rfl | hbt
      · exact hx1 b (List.mem_cons_self _ _) hc
      · exact htrans x h b (hx1 h (List.mem_cons_self _ _) hc)
          (List.rel_of_pairwise_cons hs hbt)
    · simp only [insertBy, if_neg hc]
      refine List.Pairwise.cons ?_
        (ih hs.of_cons (fun b hb hle => hx1 b (List.mem_cons_of_mem _ hb) hle)
          (fun b hb hgt => hx2 b (List.mem_cons_of_mem _ hb) hgt))
      intro b hb
      rcases mem_insertBy hb with heq | hbt
      · subst heq
        exact hx2 h (List.mem_cons_self _ _) hc
      · exact List.rel_of_pairwise_cons hs hbt

theorem jsSortBy_pairwise {α : Type} {cmp : α → α → Int} {R : α → α → Prop}
    (htrans : ∀ a b c, R a b → R b c → R a c) {l : List α}
    (h1 : ∀ a ∈ l, ∀ b ∈ l, cmp a b ≤ 0 → R a b)
    (h2 : ∀ a ∈ l, ∀ b ∈ l, ¬cmp a b ≤ 0 → R b a) :
    (jsSortBy cmp l).Pairwise R := by
  induction l with
  | nil => simp [jsSortBy]
  | cons x t ih =>
    have ht : (jsSortBy cmp t).Pairwise R :=
      ih (fun a ha b hb => h1 a (by simp [ha]) b (by simp [hb]))
        (fun a ha b hb => h2 a (by simp [ha]) b (by simp [hb]))
    exact insertBy_pairwise htrans ht
      (fun b hb => h1 x (by simp) b (by simp [mem_jsSortBy hb]))
      (fun b hb => h2 x (by simp) b (by simp [mem_jsSortBy hb]))

theorem filter_insertBy {α : Type} {cmp : α → α → Int} {p : α → Bool} {x : α} {s : List α}
    (hpx : ∀ b ∈ s, p x = true → p b = true → cmp x b ≤ 0) :
    (insertBy cmp x s).filter p = if p x then x :: s.filter p else s.filter p := by
  induction s with
  | nil => by_cases hx : p x <;> simp [insertBy, hx]
  | cons h t ih =>
    by_cases hc : cmp x h ≤ 0
    · by_cases hx : p x <;> simp [insertBy, if_pos hc, List.filter_cons, hx]
    · simp only [insertBy, if_neg hc]
      have iht := ih (fun b hb => hpx b (by simp [hb]))
      by_cases hx : p x
      · have hh : p h = false := by
          by_contra hph
          exact hc (hpx h (by simp) hx (by simpa using hph))
        simp [List.filter_cons, hh, iht, hx]
      · simp [List.filter_cons, iht, hx]

theorem jsSortBy_filter {α : Type} {cmp : α → α → Int} {p : α → Bool} {l : List α}
    (hp : ∀ a ∈ l, ∀ b ∈ l, p a = true → p b = true → cmp a b ≤ 0) :
    (jsSortBy cmp l).filter p = l.filter p := by
  induction l with
  | nil => simp [jsSortBy]
  | cons x t ih =>
    have iht := ih (fun a ha b hb => hp a (by simp [ha]) b (by simp [hb]))
    have hstep := @filter_insertBy _ cmp p x (jsSortBy cmp t)
      (fun b hb => hp x (by simp) b (by simp [mem_jsSortBy hb]))
    calc (jsSortBy cmp (x :: t)).filter p
        = (insertBy cmp x (jsSortBy cmp t)).filter p := rfl
      _ = if p x then x :: (jsSortBy cmp t).filter p else (jsSortBy cmp t).filter p := hstep
      _ = (x :: t).filter p := by rw [iht, List.filter_cons]

/-! ### Column-splitter lemmas -/

theorem ceil_le_mul (a b : Nat) (hb : 1 ≤ b) : a ≤ b * ((a + b - 1) / b) := by
  have h := @Nat.lt_div_mul_add (a + b - 1) b hb
  have h2 : (a + b - 1) / b * b + b = b * ((a + b - 1) / b) + b := by ring_nf
  omega

theorem mul_ceil_le (a b : Nat) (_hb : 1 ≤ b) : b * ((a + b - 1) / b) ≤ a + b - 1 := by
  rw [Nat.mul_comm]
  exact Nat.div_mul_le_self _ _

theorem numColumns_ge_two (n m : Nat) (hm : 1 ≤ m) (hn : m < n) :
    2 ≤ (n + m - 1) / m := by
  rw [Nat.le_div_iff_mul_le (by omega : 0 < m)]
  omega

theorem unitsPerColumn_le (n m : Nat) (hm : 1 ≤ m) (hn : m < n) :
    (n + (n + m - 1) / m - 1) / ((n + m - 1) / m) ≤ m := by
  set k := (n + m - 1) / m with hk
  have hk2 : 2 ≤ k := numColumns_ge_two n m hm hn
  have hnk : n ≤ k * m := by
    have := ceil_le_mul n m hm
    calc n ≤ m * ((n + m - 1) / m) := this
    _ = k * m := by rw [hk]; ring
  rw [Nat.div_le_iff_le_mul_add_pred (by omega : 0 < k)]
  omega

theorem unitsPerColumn_pos (n k : Nat) (hn : 1 ≤ n) (hk : 1 ≤ k) :
    1 ≤ (n + k - 1) / k := by
  rw [Nat.le_div_iff_mul_le (by omega : 0 < k)]
  omega

theorem le_numColumns_mul (n k : Nat) (hk : 1 ≤ k) :
    n ≤ k * ((n + k - 1) / k) :=
  ceil_le_mul n k hk

theorem last_chunk_bound (n m : Nat) (hm : 1 ≤ m) (hn : m < n) :
    ((n + m - 1) / m - 1) * ((n + (n + m - 1) / m - 1) / ((n + m - 1) / m)) ≤ n - 1 := by
  set k := (n + m - 1) / m with hk
  have hk2 : 2 ≤ k := numColumns_ge_two n m hm hn
  set per := (n + k - 1) / k with hper
  have hperm : per ≤ m := unitsPerColumn_le n m hm hn
  have h1 : (k - 1) * per ≤ (k - 1) * m := Nat.mul_le_mul_left _ hperm
  have h2 : (k - 1) * m = k * m - m := by
    rw [Nat.sub_one_mul]
  have h3 : k * m ≤ n + m - 1 := by
    have := mul_ceil_le n m hm
    calc k * m = m * ((n + m - 1) / m) := by rw [hk]; ring
    _ ≤ n + m - 1 := this
  omega

theorem split_eq_chunks (g : CommandGroup) (m : Nat) (hm : 1 ≤ m)
    (hn : m < g.units.length) :
    splitGroupIntoColumns g (m : Int) =
      some ((List.range ((g.units.length + m - 1) / m)).map (fun i =>
        { g with
          units := (g.units.drop
              (i * ((g.units.length + (g.units.length + m - 1) / m - 1) /
                ((g.units.length + m - 1) / m)))).take
            ((g.units.length + (g.units.length + m - 1) / m - 1) /
              ((g.units.length + m - 1) / m))
          leader := if i = 0 then g.leader else none
          columnIndex := some (i + 1)
          totalColumns := some ((g.units.length + m - 1) / m) })) := by
  unfold splitGroupIntoColumns
  rw [if_neg (by exact_mod_cast Nat.not_le.mpr hn), if_neg (by omega), if_neg (by omega)]
  simp

theorem flatten_take_slices {α : Type} (l : List α) (p k : Nat) :
    ((List.range k).map (fun i => (l.drop (i * p)).take p)).flatten = l.take (k * p) := by
  induction k with
  | zero => simp
  | succ k ih =>
    rw [List.range_succ, List.map_append, List.flatten_append, ih]
    simp only [List.map_cons, List.map_nil, List.flatten_cons, List.flatten_nil,
      List.append_nil]
    rw [Nat.succ_mul, List.take_add]

theorem split_isSome (g : CommandGroup) (m : Int) (hm : m ≠ 0) :
    (splitGroupIntoColumns g m).isSome := by
  unfold splitGroupIntoColumns
  by_cases h1 : (g.units.length : Int) ≤ m
  · simp [h1]
  · rw [if_neg h1, if_neg hm]
    by_cases h3 : m < 0
    · simp [h3]
    · simp [h3]

theorem splitSubgroupsAll_isSome (sgs : List CommandGroup) (m : Int) (hm : m ≠ 0) :
    (splitSubgroupsAll m sgs).isSome := by
  induction sgs with
  | nil => simp [splitSubgroupsAll]
  | cons sg rest ih =>
    obtain ⟨v, hv⟩ := Option.isSome_iff_exists.mp (split_isSome sg m hm)
    obtain ⟨vs, hvs⟩ := Option.isSome_iff_exists.mp ih
    simp [splitSubgroupsAll, hv, hvs]

theorem processGroup_isSome (g : CommandGroup) (m : Int) (hm : m ≠ 0) :
    (processGroup g m).isSome := by
  unfold processGroup
  obtain ⟨v, hv⟩ := Option.isSome_iff_exists.mp (split_isSome g m hm)
  obtain ⟨vs, hvs⟩ := Option.isSome_iff_exists.mp (splitSubgroupsAll_isSome g.subgroups m hm)
  by_cases hs : g.subgroups.length > 0 <;> simp [hv, hvs, hs]

theorem split_cons (g : CommandGroup) (m : Nat) (hm : 1 ≤ m)
    (hn : m < g.units.length) :
    ∃ c0 rest, splitGroupIntoColumns g (m : Int) = some (c0 :: rest) ∧ rest ≠ [] := by
  have hsplit := split_eq_chunks g m hm hn
  have hk2 : 2 ≤ (g.units.length + m - 1) / m := numColumns_ge_two _ m hm hn
  obtain ⟨q, hq⟩ : ∃ q, (g.units.length + m - 1) / m = q + 1 :=
    ⟨(g.units.length + m - 1) / m - 1, by omega⟩
  rw [hq, List.range_succ_eq_map, List.map_cons, List.map_map] at hsplit
  refine ⟨_, _, hsplit, ?_⟩
  simp only [ne_eq, List.map_eq_nil_iff, List.range_eq_nil]
  omega

/-! ### Claims about the column splitter -/

/-- C2 counterexample: thirteen units with `maxUnitsPerColumn = 6` split
into chunks of sizes 5, 5, 3, so the largest chunk exceeds the smallest
by 2, refuting the claimed "largest minus smallest is at most 1". -/
theorem splitColumns_balance_gap_two :
    ((splitGroupIntoColumns c2Group 6).getD []).map (fun c => c.units.length) = [5, 5, 3] ∧
      ∃ c1 ∈ (splitGroupIntoColumns c2Group 6).getD [],
        ∃ c2 ∈ (splitGroupIntoColumns c2Group 6).getD [],
          c2.units.length + 2 ≤ c1.units.length := by
  constructor
  · decide
  · decide

/-- C2 (amended): for every group whose unit count exceeds
`maxUnitsPerColumn ≥ 1`, the split produces at least two chunks, every
chunk holds between 1 and `maxUnitsPerColumn` units, and every chunk
except the last holds exactly `ceil(unitCount / numColumns)` units (the
last may be smaller by more than 1, as in 13/6 → 5/5/3). -/
theorem splitColumns_chunk_sizes (g : CommandGroup) (m : Nat) (hm : 1 ≤ m)
    (hn : m < g.units.length) :
    ∃ chunks, splitGroupIntoColumns g (m : Int) = some chunks ∧
      2 ≤ chunks.length ∧
      (∀ c ∈ chunks, 1 ≤ c.units.length ∧ c.units.length ≤ m) ∧
      (∀ i, (hi : i < chunks.length) → i + 1 < chunks.length →
        chunks[i].units.length =
          (g.units.length + chunks.length - 1) / chunks.length) := by
  refine ⟨_, split_eq_chunks g m hm hn, ?_, ?_, ?_⟩
  · simpa using numColumns_ge_two g.units.length m hm hn
  · intro c hc
    obtain ⟨i, hi, rfl⟩ := List.mem_map.mp hc
    have hik : i < (g.units.length + m - 1) / m := List.mem_range.mp hi
    set n := g.units.length with hnn
    set k := (n + m - 1) / m with hk
    set per := (n + k - 1) / k with hper
    have hk2 : 2 ≤ k := numColumns_ge_two n m hm hn
    have hpos : 1 ≤ per := unitsPerColumn_pos n k (by omega) (by omega)
    have hlast : (k - 1) * per ≤ n - 1 := last_chunk_bound n m hm hn
    have hstep : i * per ≤ (k - 1) * per := Nat.mul_le_mul_right per (by omega)
    have hml : per ≤ m := unitsPerColumn_le n m hm hn
    simp only [List.length_take, List.length_drop]
    rw [Nat.min_def]
    split_ifs <;> omega
  · intro i hi hilt
    simp only [List.length_map, List.length_range] at hi hilt ⊢
    simp only [List.getElem_map, List.getElem_range, List.length_take, List.length_drop]
    set n := g.units.length with hnn
    set k := (n + m - 1) / m with hk
    set per := (n + k - 1) / k with hper
    have hk2 : 2 ≤ k := numColumns_ge_two n m hm hn
    have hlast : (k - 1) * per ≤ n - 1 := last_chunk_bound n m hm hn
    have hstep : (i + 1) * per ≤ (k - 1) * per := Nat.mul_le_mul_right per (by omega)
    have hmul : (i + 1) * per = i * per + per := by ring
    rw [Nat.min_def]
    split_ifs <;> omega

/-- C2 witness at the thirteen-unit group with `maxUnitsPerColumn = 6`. -/
theorem splitColumns_chunk_sizes_witness :
    (1 ≤ 6 ∧ 6 < c2Group.units.length) ∧
      ∃ chunks, splitGroupIntoColumns c2Group ((6 : Nat) : Int) = some chunks ∧
        2 ≤ chunks.length ∧
        (∀ c ∈ chunks, 1 ≤ c.units.length ∧ c.units.length ≤ 6) ∧
        (∀ i, (hi : i < chunks.length) → i + 1 < chunks.length →
          chunks[i].units.length =
            (c2Group.units.length + chunks.length - 1) / chunks.length) :=
  ⟨⟨by decide, by decide⟩, splitColumns_chunk_sizes c2Group 6 (by decide) (by decide)⟩

/-- C3 (confirmed): for every group and every positive
`maxUnitsPerColumn`, concatenating the chunks' `units` in column order
reproduces the group's `units` exactly. -/
theorem splitColumns_concat_preserves_units (g : CommandGroup) (m : Nat) (hm : 1 ≤ m) :
    ∃ chunks, splitGroupIntoColumns g (m : Int) = some chunks ∧
      (chunks.map (fun c => c.units)).flatten = g.units := by
  by_cases hle : g.units.length ≤ m
  · refine ⟨[g], ?_, by simp⟩
    unfold splitGroupIntoColumns
    rw [if_pos (by exact_mod_cast hle)]
  · have hn : m < g.units.length := by omega
    refine ⟨_, split_eq_chunks g m hm hn, ?_⟩
    set n := g.units.length with hnn
    set k := (n + m - 1) / m with hk
    set per := (n + k - 1) / k with hper
    have hk2 : 2 ≤ k := numColumns_ge_two n m hm hn
    rw [List.map_map]
    have hcomp :
        ((fun c => CommandGroup.units c) ∘ (fun i =>
          { g with
            units := (g.units.drop (i * per)).take per
            leader := if i = 0 then g.leader else none
            columnIndex := some (i + 1)
            totalColumns := some k })) =
          fun i => (g.units.drop (i * per)).take per := rfl
    rw [hcomp, flatten_take_slices]
    exact List.take_of_length_le (le_numColumns_mul n k (by omega))

/-- C3 witness at a three-unit group with `maxUnitsPerColumn = 2`. -/
theorem splitColumns_concat_preserves_units_witness :
    (1 ≤ 2) ∧
      ∃ chunks, splitGroupIntoColumns c3Group ((2 : Nat) : Int) = some chunks ∧
        (chunks.map (fun c => c.units)).flatten = c3Group.units :=
  ⟨by decide, splitColumns_concat_preserves_units c3Group 2 (by decide)⟩

/-- C6 counterexample: a leaderless two-unit group split with
`maxUnitsPerColumn = 1` yields two chunks, none of which carries a
leader, refuting "exactly one chunk (the first) has a non-null leader". -/
theorem splitColumns_leaderless_no_leader_chunk :
    ((splitGroupIntoColumns c6CounterGroup 1).getD []).length = 2 ∧
      ((splitGroupIntoColumns c6CounterGroup 1).getD []).countP
        (fun c => c.leader.isSome) = 0 := by
  constructor
  · decide
  · decide

/-- C6 (amended): when a group is split, the first chunk carries the
original `leader` field (so a leader-bearing group keeps its leader
exactly on chunk 1, and a leaderless group yields only leaderless
chunks), and every later chunk — exactly the chunks with
`columnIndex > 1` — has `leader = null`. -/
theorem splitColumns_leader_only_first (g : CommandGroup) (m : Nat) (hm : 1 ≤ m)
    (hn : m < g.units.length) :
    ∃ c0 rest, splitGroupIntoColumns g (m : Int) = some (c0 :: rest) ∧ rest ≠ [] ∧
      c0.leader = g.leader ∧ c0.columnIndex = some 1 ∧
      ∀ c ∈ rest, c.leader = none ∧ ∃ j, c.columnIndex = some (j + 2) := by
  have hsplit := split_eq_chunks g m hm hn
  set n := g.units.length with hnn
  set k := (n + m - 1) / m with hk
  set per := (n + k - 1) / k with hper
  have hk2 : 2 ≤ k := numColumns_ge_two n m hm hn
  obtain ⟨q, hq⟩ : ∃ q, k = q + 1 := ⟨k - 1, by omega⟩
  rw [hq, List.range_succ_eq_map, List.map_cons, List.map_map] at hsplit
  refine ⟨_, _, hsplit, ?_, by simp, by simp, ?_⟩
  · simp only [ne_eq, List.map_eq_nil_iff, List.range_eq_nil]
    omega
  · intro c hc
    obtain ⟨j, hj, rfl⟩ := List.mem_map.mp hc
    exact ⟨by simp [Function.comp], j, by simp [Function.comp]⟩

/-- C6 witness at a leader-bearing three-unit group split with
`maxUnitsPerColumn = 1`. -/
theorem splitColumns_leader_only_first_witness :
    (1 ≤ 1 ∧ 1 < c3Group.units.length) ∧
      ∃ c0 rest, splitGroupIntoColumns c3Group ((1 : Nat) : Int) = some (c0 :: rest) ∧
        rest ≠ [] ∧ c0.leader = c3Group.leader ∧ c0.columnIndex = some 1 ∧
        ∀ c ∈ rest, c.leader = none ∧ ∃ j, c.columnIndex = some (j + 2) :=
  ⟨⟨by decide, by decide⟩,
    splitColumns_leader_only_first c3Group 1 (by decide) (by decide)⟩

/-- C8 (confirmed): when `splitLargeGroups` splits a group with
non-empty `subgroups` into two or more chunks, the independently split
subgroups are all attached to the first chunk only, and every later
chunk carries an empty subgroup list. -/
theorem splitLargeGroups_subgroups_first_chunk (g : CommandGroup) (m : Nat)
    (hm : 1 ≤ m) (hn : m < g.units.length) (hsub : g.subgroups ≠ []) :
    ∃ subSplit c0 rest,
      splitSubgroupsAll (m : Int) g.subgroups = some subSplit ∧
      processGroup g (m : Int) = some (c0 :: rest) ∧ rest ≠ [] ∧
      splitLargeGroups [g] (m : Int) = some (c0 :: rest) ∧
      c0.subgroups = subSplit ∧
      ∀ c ∈ rest, c.subgroups = [] := by
  have hm0 : (m : Int) ≠ 0 := by exact_mod_cast (by omega : m ≠ 0)
  obtain ⟨subSplit, hss⟩ :=
    Option.isSome_iff_exists.mp (splitSubgroupsAll_isSome g.subgroups (m : Int) hm0)
  obtain ⟨c0, rest, hsp, hrest⟩ := split_cons g m hm hn
  have hlen : 0 < g.subgroups.length := List.length_pos.mpr hsub
  have hproc : processGroup g (m : Int) =
      some ({ c0 with subgroups := subSplit } ::
        rest.map (fun c => { c with subgroups := [] })) := by
    unfold processGroup
    rw [hsp]
    simp only [Option.bind_eq_bind, Option.some_bind, if_pos hlen, hss,
      setHeadSubgroups, Option.pure_def]
  refine ⟨subSplit, _, _, hss, hproc, by simpa using hrest, ?_, rfl, ?_⟩
  · rw [splitLargeGroups, hproc]
    simp [splitLargeGroups]
  · intro c hc
    obtain ⟨c2, hc2, rfl⟩ := List.mem_map.mp hc
    rfl

/-- C8 witness at a corps group with three direct units, one two-unit
subgroup, and `maxUnitsPerColumn = 2`. -/
theorem splitLargeGroups_subgroups_first_chunk_witness :
    (1 ≤ 2 ∧ 2 < c8Group.units.length ∧ c8Group.subgroups ≠ []) ∧
      ∃ subSplit c0 rest,
        splitSubgroupsAll ((2 : Nat) : Int) c8Group.subgroups = some subSplit ∧
        processGroup c8Group ((2 : Nat) : Int) = some (c0 :: rest) ∧ rest ≠ [] ∧
        splitLargeGroups [c8Group] ((2 : Nat) : Int) = some (c0 :: rest) ∧
        c0.subgroups = subSplit ∧
        ∀ c ∈ rest, c.subgroups = [] :=
  ⟨⟨by decide, by decide, List.cons_ne_nil _ _⟩,
    splitLargeGroups_subgroups_first_chunk c8Group 2 (by decide) (by decide)
      (List.cons_ne_nil _ _)⟩

/-- C9 counterexample: with `maxUnitsPerColumn = 0` and a one-unit
group, the column loop of the original never terminates (modelled by the
`none` result), refuting totality at zero. -/
theorem splitLargeGroups_diverges_at_zero :
    (splitGroupIntoColumns c9Group 0).isSome = false ∧
      (splitLargeGroups [c9Group] 0).isSome = false := by
  constructor
  · decide
  · decide

/-- C9 (amended): `splitLargeGroups` (and `splitGroupIntoColumns`)
terminates with a result for every nonzero `maxUnitsPerColumn`,
including negative values; only `maxUnitsPerColumn = 0` with a non-empty
unit list makes the column loop diverge. -/
theorem splitLargeGroups_total_nonzero (gs : List CommandGroup) (m : Int)
    (hm : m ≠ 0) : (splitLargeGroups gs m).isSome := by
  induction gs with
  | nil => simp [splitLargeGroups]
  | cons g rest ih =>
    rw [splitLargeGroups]
    obtain ⟨v, hv⟩ := Option.isSome_iff_exists.mp (processGroup_isSome g m hm)
    obtain ⟨vs, hvs⟩ := Option.isSome_iff_exists.mp ih
    simp [hv, hvs]

/-- C9 witness: the splitter succeeds on a one-unit group at
`maxUnitsPerColumn = -3` and at `6`. -/
theorem splitLargeGroups_total_nonzero_witness :
    ((-3 : Int) ≠ 0 ∧ (6 : Int) ≠ 0) ∧
      (splitLargeGroups [c9Group] (-3)).isSome ∧
      (splitLargeGroups [c9Group] 6).isSome :=
  ⟨⟨by decide, by decide⟩,
    splitLargeGroups_total_nonzero [c9Group] (-3) (by decide),
    splitLargeGroups_total_nonzero [c9Group] 6 (by decide)⟩

/-! ### Claims about the group sorter -/

theorem cmpGroups_le_iff_key (a b : CommandGroup)
    (ha : isCavalryGroup a = true → a.leader.isSome = true →
      leaderSizeOf a = "Div" ∨ leaderSizeOf a = "Corps")
    (hb : isCavalryGroup b = true → b.leader.isSome = true →
      leaderSizeOf b = "Div" ∨ leaderSizeOf b = "Corps") :
    (cmpGroups a b ≤ 0 ↔ groupKeyNat a ≤ groupKeyNat b) := by
  unfold cmpGroups groupKeyNat
  rcases Bool.eq_false_or_eq_true a.leader.isSome with hal | hal <;>
    rcases Bool.eq_false_or_eq_true b.leader.isSome with hbl | hbl <;>
      rcases Bool.eq_false_or_eq_true (isCavalryGroup a) with hac | hac <;>
        rcases Bool.eq_false_or_eq_true (isCavalryGroup b) with hbc | hbc <;>
          simp only [hal, hbl, hac, hbc, ne_eq, Bool.true_eq_false, Bool.false_eq_true,
            not_true_eq_false, not_false_eq_true, if_true, if_false, true_and, false_and,
            and_true, and_false, and_self, ite_true, ite_false] <;>
        (try (split_ifs <;> omega)) <;> (try omega)
  all_goals
    rcases ha hac hal with hA | hA <;> rcases hb hbc hbl with hB | hB <;>
      simp only [hA, hB] <;> decide

theorem cmpGroups_eq_zero_of_same_key (a b : CommandGroup)
    (h1 : a.leader.isSome = b.leader.isSome) (h2 : isCavalryGroup a = isCavalryGroup b)
    (h3 : leaderSizeOf a = leaderSizeOf b) : cmpGroups a b = 0 := by
  unfold cmpGroups
  rw [h1, h2, h3]
  by_cases hd : leaderSizeOf b = "Div" <;> by_cases hc : leaderSizeOf b = "Corps"
  · exact absurd (hd.symm.trans hc) (by decide)
  all_goals simp [hd, hc]


theorem key_leader_mono (a b : CommandGroup) (hk : groupKeyNat a ≤ groupKeyNat b)
    (hbL : b.leader.isSome = true) : a.leader.isSome = true := by
  rcases Bool.eq_false_or_eq_true a.leader.isSome with ha | ha
  · exact ha
  · exfalso
    have h1 : 4 ≤ groupKeyNat a := by
      unfold groupKeyNat
      simp only [ha, Bool.false_eq_true, if_false, and_false, false_and, and_self,
        if_true, true_and]
      first | (split_ifs <;> omega) | omega
    have h2 : groupKeyNat b ≤ 3 := by
      unfold groupKeyNat
      simp only [hbL, if_true, true_and]
      first | (split_ifs <;> omega) | omega
    omega

theorem key_cav_mono (a b : CommandGroup) (hk : groupKeyNat a ≤ groupKeyNat b)
    (hEq : a.leader.isSome = b.leader.isSome) (hca : isCavalryGroup a = true) :
    isCavalryGroup b = true := by
  rcases Bool.eq_false_or_eq_true (isCavalryGroup b) with hcb | hcb
  · exact hcb
  · exfalso
    rcases Bool.eq_false_or_eq_true b.leader.isSome with hbl | hbl
    · have hal : a.leader.isSome = true := hEq.trans hbl
      have h1 : 2 ≤ groupKeyNat a := by
        unfold groupKeyNat
        simp only [hal, hca, if_true, true_and]
        first | (split_ifs <;> omega) | omega
      have h2 : groupKeyNat b = 0 := by
        unfold groupKeyNat
        simp only [hbl, hcb, Bool.false_eq_true, if_false, if_true, false_and,
          and_false, and_self]
      omega
    · have hal : a.leader.isSome = false := hEq.trans hbl
      have h1 : 6 ≤ groupKeyNat a := by
        unfold groupKeyNat
        simp only [hal, hca, Bool.false_eq_true, if_false, if_true, true_and,
          false_and, and_false, and_self]
        first | (split_ifs <;> omega) | omega
      have h2 : groupKeyNat b = 4 := by
        unfold groupKeyNat
        simp only [hbl, hcb, Bool.false_eq_true, if_false, false_and, and_false,
          and_self]
      omega

theorem key_tertiary_mono (a b : CommandGroup) (hk : groupKeyNat a ≤ groupKeyNat b)
    (hca : isCavalryGroup a = true) (hcb : isCavalryGroup b = true)
    (hal : a.leader.isSome = true) (hbl : b.leader.isSome = true) :
    ¬(leaderSizeOf a = "Corps" ∧ leaderSizeOf b = "Div") := by
  rintro ⟨hA, hB⟩
  have h1 : groupKeyNat a = 3 := by
    simp [groupKeyNat, hca, hal, hA]
  have h2 : groupKeyNat b = 2 := by
    simp [groupKeyNat, hcb, hbl, hB]
  omega

/-- C5 counterexample: four all-cavalry leader-led groups with leader
sizes Corps, Brig, Brig, Div keep their input order under
`sortCommandGroups` (the comparator is not transitive there), so the
Corps-led cavalry group precedes the Div-led one, refuting the claimed
Div-before-Corps ordering. -/
theorem sortGroups_corps_before_div_with_brig :
    (sortCommandGroups c5CounterGroups).map (fun g => leaderSizeOf g) =
        ["Corps", "Brig", "Brig", "Div"] ∧
      ∀ g ∈ c5CounterGroups, isCavalryGroup g = true ∧ g.leader.isSome = true := by
  constructor
  · decide
  · decide

/-- C5 (amended): provided every cavalry group with a leader has leader
size `"Div"` or `"Corps"` (which makes the sort comparator a consistent
comparison function — with other sizes present it is not transitive and
e.g. Corps/Brig/Brig/Div keeps Corps first), `sortCommandGroups` is a
permutation in which every leader-bearing group precedes every
leaderless one; within equal leader presence no cavalry group precedes a
non-cavalry one; within cavalry groups with leaders no Corps-size leader
precedes a Div-size one; and groups with identical
(leader-presence, cavalry, leader-size) keys keep their input order. -/
theorem sortGroups_ordering_spec (gs : List CommandGroup)
    (H : ∀ g ∈ gs, isCavalryGroup g = true → g.leader.isSome = true →
      leaderSizeOf g = "Div" ∨ leaderSizeOf g = "Corps") :
    (sortCommandGroups gs).Perm gs ∧
    (sortCommandGroups gs).Pairwise (fun a b =>
      (b.leader.isSome = true → a.leader.isSome = true) ∧
      (a.leader.isSome = b.leader.isSome → isCavalryGroup a = true →
        isCavalryGroup b = true) ∧
      (isCavalryGroup a = true → isCavalryGroup b = true → a.leader.isSome = true →
        b.leader.isSome = true →
        ¬(leaderSizeOf a = "Corps" ∧ leaderSizeOf b = "Div"))) ∧
    (∀ t : Bool × Bool × String,
      (sortCommandGroups gs).filter
          (fun g => decide ((g.leader.isSome, isCavalryGroup g, leaderSizeOf g) = t)) =
        gs.filter
          (fun g => decide ((g.leader.isSome, isCavalryGroup g, leaderSizeOf g) = t))) := by
  unfold sortCommandGroups
  refine ⟨jsSortBy_perm _ _, ?_, ?_⟩
  · have hkey : (jsSortBy cmpGroups gs).Pairwise
        (fun a b => groupKeyNat a ≤ groupKeyNat b) := by
      refine @jsSortBy_pairwise CommandGroup cmpGroups
        (fun a b => groupKeyNat a ≤ groupKeyNat b)
        (fun a b c h1 h2 => Nat.le_trans h1 h2) gs ?_ ?_
      · intro a haM b hbM hle
        exact (cmpGroups_le_iff_key a b (H a haM) (H b hbM)).mp hle
      · intro a haM b hbM hnle
        have h := (cmpGroups_le_iff_key a b (H a haM) (H b hbM)).not.mp hnle
        omega
    refine hkey.imp_of_mem ?_
    intro a b haM hbM hk
    exact ⟨key_leader_mono a b hk, key_cav_mono a b hk, key_tertiary_mono a b hk⟩
  · intro t
    apply jsSortBy_filter
    intro a _ b _ hpa hpb
    have ha := of_decide_eq_true hpa
    have hb := of_decide_eq_true hpb
    have he := ha.trans hb.symm
    have h1 : a.leader.isSome = b.leader.isSome := congrArg Prod.fst he
    have h2 : isCavalryGroup a = isCavalryGroup b :=
      congrArg (fun p => p.snd.fst) he
    have h3 : leaderSizeOf a = leaderSizeOf b :=
      congrArg (fun p => p.snd.snd) he
    exact le_of_eq (cmpGroups_eq_zero_of_same_key a b h1 h2 h3)

/-- C5 witness at a mixed sibling level: leaderless infantry, cavalry
corps, cavalry division, leader-led infantry. -/
theorem sortGroups_ordering_spec_witness :
    (∀ g ∈ c5WitnessGroups, isCavalryGroup g = true → g.leader.isSome = true →
        leaderSizeOf g = "Div" ∨ leaderSizeOf g = "Corps") ∧
      ((sortCommandGroups c5WitnessGroups).Perm c5WitnessGroups ∧
      (sortCommandGroups c5WitnessGroups).Pairwise (fun a b =>
        (b.leader.isSome = true → a.leader.isSome = true) ∧
        (a.leader.isSome = b.leader.isSome → isCavalryGroup a = true →
          isCavalryGroup b = true) ∧
        (isCavalryGroup a = true → isCavalryGroup b = true → a.leader.isSome = true →
          b.leader.isSome = true →
          ¬(leaderSizeOf a = "Corps" ∧ leaderSizeOf b = "Div"))) ∧
      (∀ t : Bool × Bool × String,
        (sortCommandGroups c5WitnessGroups).filter
            (fun g => decide ((g.leader.isSome, isCavalryGroup g, leaderSizeOf g) = t)) =
          c5WitnessGroups.filter
            (fun g => decide ((g.leader.isSome, isCavalryGroup g, leaderSizeOf g) = t)))) :=
  ⟨by decide, sortGroups_ordering_spec c5WitnessGroups (by decide)⟩

/-! ### Claims about the hierarchy builder -/

/-- C1 (code bug in the source): the combat unit with command
`"A-B-C"` occurs once in the input but twice in the pre-split forest,
because the subordinate-merge loop of the standard branch never checks
`processedCommands` before claiming a leaderless code, so both the
`"B"` leader and the `"B-C"` leader absorb it. -/
theorem duplicate_subordinate_unit_in_hierarchy :
    (combatUnitsOf c1Input).count (mkU "u" "A-B-C" "Inf") = 1 ∧
      (forestUnits (buildCommandHierarchy c1Input)).count (mkU "u" "A-B-C" "Inf") = 2 ∧
      (buildCommandHierarchy c1Input).map (fun g => g.commandCode) = ["B", "B-C"] := by
  refine ⟨by decide, by decide, by decide⟩

/-- C4 counterexample: a `Div` leader whose command is the `"-"`
sentinel is mapped to the `"Cav"` corps by the inference, yet no
subgroup is emitted for it anywhere in the forest (the subgroup loop
skips codes without a `leaderByCommand` entry), refuting "mapped AND
emitted as a subgroup". -/
theorem cavalry_inference_sentinel_not_emitted :
    ((applyCavalryInference c4CounterInput (divToCorpsBase c4CounterInput)).lookup "-") =
        some "Cav" ∧
      (buildCommandHierarchy c4CounterInput).map
        (fun g => (g.commandCode, g.subgroups.length)) = [("Cav", 0), ("-", 0)] := by
  refine ⟨by decide, by decide⟩

/-- C7 counterexample: with two Brig leaders "A" and "Z" sharing code
`"I"`, the single emitted group keeps leader "A" — the first leader in
the sorted iteration order, not the last as claimed. -/
theorem duplicate_leader_first_sorted_wins :
    (buildCommandHierarchy c7Input).map
        (fun g => ((g.leader.map (fun l => l.name)).getD "", g.commandCode)) =
      [("A", "I")] := by
  decide

/-- C10 counterexample: an input where the two `buildCommandHierarchy`
implementations return different forests (the part_021 one sorts the
cavalry group after the infantry group; the web one keeps input order). -/
theorem web_and_part021_hierarchies_differ :
    buildCommandHierarchy c10CounterInput ≠ buildCommandHierarchyWeb c10CounterInput := by
  intro h
  exact absurd (congrArg (List.map (fun g => g.commandCode)) h) (by decide)

/-- C10 (amended): the two implementations are not equal in general;
the part_021 implementation equals `sortCommandGroups` composed with
the web implementation whenever no Corps-level leader carries the
command code `"Cav"` (the cavalry-inference step is then inactive). -/
theorem part021_eq_sorted_web_without_cav_corps (units : List Unit)
    (h : ∀ l ∈ corpsLeaders units, l.command ≠ "Cav") :
    buildCommandHierarchy units = sortCommandGroups (buildCommandHierarchyWeb units) := by
  unfold buildCommandHierarchy buildCommandHierarchyWeb
  have hfind : (corpsLeaders units).find? (fun l => l.command = "Cav") = none :=
    List.find?_eq_none.mpr (fun x hx => by simpa using h x hx)
  unfold applyCavalryInference
  rw [hfind]

/-- C10 witness at an input with no Corps-level leader. -/
theorem part021_eq_sorted_web_without_cav_corps_witness :
    (∀ l ∈ corpsLeaders c10WitnessInput, l.command ≠ "Cav") ∧
      buildCommandHierarchy c10WitnessInput =
        sortCommandGroups (buildCommandHierarchyWeb c10WitnessInput) :=
  ⟨by decide, part021_eq_sorted_web_without_cav_corps c10WitnessInput (by decide)⟩

/-! ### Main-loop invariants of the hierarchy builder -/

theorem collect_processed_mono (lByC : List (String × Unit)) (cmd : String) :
    ∀ (es : List (String × List Unit)) (pr : List String),
      pr ⊆ (collectSubordinateUnits lByC cmd es pr).2 := by
  intro es
  induction es with
  | nil => intro pr; exact fun x hx => hx
  | cons e rest ih =>
    intro pr
    obtain ⟨otherCmd, otherUnits⟩ := e
    by_cases hc : isSubordinateCommand otherCmd cmd ∧ (lByC.lookup otherCmd).isNone
    · simp only [collectSubordinateUnits, if_pos hc]
      intro x hx
      exact ih (otherCmd :: pr) (List.mem_cons_of_mem _ hx)
    · simp only [collectSubordinateUnits, if_neg hc]
      exact ih pr

theorem bds_processed_mono (lByC : List (String × Unit)) (uByC : List (String × List Unit))
    (parentCmd : String) :
    ∀ (cmds : List String) (pr : List String),
      pr ⊆ (buildDivSubgroups lByC uByC parentCmd cmds pr).2 := by
  intro cmds
  induction cmds with
  | nil => intro pr; exact fun x hx => hx
  | cons dc rest ih =>
    intro pr
    cases hdl : lByC.lookup dc with
    | none =>
      simp only [buildDivSubgroups, hdl]
      exact ih pr
    | some divLeader =>
      simp only [buildDivSubgroups, hdl]
      intro x hx
      exact ih (dc :: pr) (List.mem_cons_of_mem _ hx)

theorem stepLeader_preserves_inv (lByC : List (String × Unit))
    (uByC : List (String × List Unit)) (d2c : List (String × String))
    (st : BuildState) (l : Unit) (h : StepInv st) :
    StepInv (stepLeader lByC uByC d2c st l) := by
  obtain ⟨hpw, hproc, hldr⟩ := h
  simp only [stepLeader]
  split_ifs with h1 h2 h3 h4 h5 h6
  · exact ⟨hpw, hproc, hldr⟩
  · exact ⟨hpw, hproc, hldr⟩
  · exact ⟨hpw, hproc, hldr⟩
  · -- Corps branch with subgroups
    refine ⟨?_, ?_, ?_⟩
    · rw [List.pairwise_append]
      refine ⟨hpw, List.pairwise_singleton _ _, ?_⟩
      intro a ha b hb
      simp only [List.mem_singleton] at hb
      subst hb
      intro hEq
      have hEq2 : a.commandCode = l.command := hEq
      exact h3 (hEq2 ▸ hproc a ha)
    · intro g hg
      rcases List.mem_append.mp hg with hg | hg
      · exact bds_processed_mono lByC uByC l.command _ _
          (List.mem_cons_of_mem _ (hproc g hg))
      · simp only [List.mem_singleton] at hg
        subst hg
        exact bds_processed_mono lByC uByC l.command _ _ (List.mem_cons_self _ _)
    · intro g hg l2 hl2
      rcases List.mem_append.mp hg with hg | hg
      · exact hldr g hg l2 hl2
      · simp only [List.mem_singleton] at hg
        subst hg
        cases hl2
        rfl
  · -- Div already mapped: only processed grows
    exact ⟨hpw, fun g hg => List.mem_cons_of_mem _ (hproc g hg), hldr⟩
  · -- standard branch, group pushed
    refine ⟨?_, ?_, ?_⟩
    · rw [List.pairwise_append]
      refine ⟨hpw, List.pairwise_singleton _ _, ?_⟩
      intro a ha b hb
      simp only [List.mem_singleton] at hb
      subst hb
      intro hEq
      have hEq2 : a.commandCode = l.command := hEq
      exact h3 (hEq2 ▸ hproc a ha)
    · intro g hg
      rcases List.mem_append.mp hg with hg | hg
      · exact collect_processed_mono lByC l.command _ _
          (List.mem_cons_of_mem _ (hproc g hg))
      · simp only [List.mem_singleton] at hg
        subst hg
        exact collect_processed_mono lByC l.command _ _ (List.mem_cons_self _ _)
    · intro g hg l2 hl2
      rcases List.mem_append.mp hg with hg | hg
      · exact hldr g hg l2 hl2
      · simp only [List.mem_singleton] at hg
        subst hg
        cases hl2
        rfl
  · -- standard branch, nothing pushed
    exact ⟨hpw, fun g hg => collect_processed_mono lByC l.command _ _
      (List.mem_cons_of_mem _ (hproc g hg)), hldr⟩

theorem foldl_stepLeader_inv (lByC : List (String × Unit))
    (uByC : List (String × List Unit)) (d2c : List (String × String))
    (leaders : List Unit) :
    ∀ (st : BuildState), StepInv st →
      StepInv (leaders.foldl (stepLeader lByC uByC d2c) st) := by
  induction leaders with
  | nil => exact fun st h => h
  | cons l rest ih =>
    intro st h
    exact ih _ (stepLeader_preserves_inv lByC uByC d2c st l h)

theorem upsertAppend_keys (m : List (String × List Unit)) (k : String) (v : Unit) :
    (upsertAppend m k v).map Prod.fst =
      if k ∈ m.map Prod.fst then m.map Prod.fst else m.map Prod.fst ++ [k] := by
  induction m with
  | nil => simp [upsertAppend]
  | cons e rest ih =>
    obtain ⟨k2, vs⟩ := e
    by_cases hk : k2 = k
    · subst hk
      simp [upsertAppend]
    · simp only [upsertAppend, if_neg hk, List.map_cons, ih]
      by_cases hmem : k ∈ rest.map Prod.fst
      · simp [hmem, hk, Ne.symm hk]
      · simp [hmem, hk, Ne.symm hk]

theorem upsertAppend_keys_nodup (m : List (String × List Unit)) (k : String) (v : Unit)
    (h : (m.map Prod.fst).Nodup) : ((upsertAppend m k v).map Prod.fst).Nodup := by
  rw [upsertAppend_keys]
  by_cases hmem : k ∈ m.map Prod.fst
  · rwa [if_pos hmem]
  · rw [if_neg hmem]
    simp [List.nodup_append, h, hmem]

theorem unitsByCommand_keys_nodup (units : List Unit) :
    ((unitsByCommand units).map Prod.fst).Nodup := by
  unfold unitsByCommand
  generalize combatUnitsOf units = cs
  have : ∀ (m : List (String × List Unit)), (m.map Prod.fst).Nodup →
      ((cs.foldl (fun m u =>
        upsertAppend m (if u.command = "" then "-" else u.command) u) m).map Prod.fst).Nodup := by
    induction cs with
    | nil => exact fun m h => h
    | cons c rest ih =>
      intro m h
      exact ih _ (upsertAppend_keys_nodup m _ c h)
  exact this [] (by simp)

theorem addLeaderless_aux (processed : List String) :
    ∀ (es : List (String × List Unit)) (gs : List CommandGroup),
      (es.map Prod.fst).Nodup →
      gs.Pairwise (fun a b => a.commandCode ≠ b.commandCode) →
      (∀ g ∈ gs, g.commandCode ∈ processed ∨ g.commandCode ∉ es.map Prod.fst) →
      (∀ g ∈ gs, ∀ l, g.leader = some l → l.command = g.commandCode) →
      (es.foldl
        (fun gs p =>
          if p.1 ∈ processed ∨ p.2 = [] then gs
          else gs ++
            [{ leader := none
               commandCode := p.1
               displayName := if p.1 = "-" ∨ p.1 = "—" then "Independent" else p.1
               size := ""
               units := p.2
               subgroups := [] }]) gs).Pairwise
          (fun a b => a.commandCode ≠ b.commandCode) ∧
      (∀ g ∈ (es.foldl
        (fun gs p =>
          if p.1 ∈ processed ∨ p.2 = [] then gs
          else gs ++
            [{ leader := none
               commandCode := p.1
               displayName := if p.1 = "-" ∨ p.1 = "—" then "Independent" else p.1
               size := ""
               units := p.2
               subgroups := [] }]) gs),
        ∀ l, g.leader = some l → l.command = g.commandCode) := by
  intro es
  induction es with
  | nil => exact fun gs _ h1 _ h3 => ⟨h1, h3⟩
  | cons e rest ih =>
    intro gs hnd h1 h2 h3
    obtain ⟨k, us⟩ := e
    simp only [List.map_cons, List.nodup_cons] at hnd
    by_cases hc : k ∈ processed ∨ us = []
    · simp only [List.foldl_cons, if_pos hc]
      refine ih gs hnd.2 h1 ?_ h3
      intro g hg
      rcases h2 g hg with hp | hp
      · exact Or.inl hp
      · exact Or.inr (fun hmem => hp (List.mem_cons_of_mem _ hmem))
    · simp only [List.foldl_cons, if_neg hc]
      push_neg at hc
      refine ih _ hnd.2 ?_ ?_ ?_
      · rw [List.pairwise_append]
        refine ⟨h1, List.pairwise_singleton _ _, ?_⟩
        intro a ha b hb
        simp only [List.mem_singleton] at hb
        subst hb
        intro hEq
        have hEq2 : a.commandCode = k := hEq
        rcases h2 a ha with hp | hp
        · exact hc.1 (hEq2 ▸ hp)
        · exact hp (hEq2 ▸ List.mem_cons_self _ _)
      · intro g hg
        rcases List.mem_append.mp hg with hg | hg
        · rcases h2 g hg with hp | hp
          · exact Or.inl hp
          · exact Or.inr (fun hmem => hp (List.mem_cons_of_mem _ hmem))
        · simp only [List.mem_singleton] at hg
          subst hg
          exact Or.inr (fun hmem => hnd.1 hmem)
      · intro g hg l hl
        rcases List.mem_append.mp hg with hg | hg
        · exact h3 g hg l hl
        · simp only [List.mem_singleton] at hg
          subst hg
          cases hl

/-- C7 (amended): duplicate leader claims are resolved deterministically
rather than rejected, but the kept leader is the *first* (not last) in
the builder's sorted iteration order — see the counterexample — and at
most one top-level `CommandGroup` is emitted per command code: the
top-level codes of the forest are pairwise distinct, and every emitted
group's leader (when present) carries exactly the group's code. -/
theorem hierarchy_codes_distinct (units : List Unit) :
    (buildCommandHierarchy units).Pairwise
        (fun a b => a.commandCode ≠ b.commandCode) ∧
      ∀ g ∈ buildCommandHierarchy units, ∀ l, g.leader = some l →
        l.command = g.commandCode := by
  unfold buildCommandHierarchy buildGroupsCore sortCommandGroups
  have hst := foldl_stepLeader_inv (leaderByCommand units) (unitsByCommand units)
    (applyCavalryInference units (divToCorpsBase units)) (sortedLeaders units)
    ⟨[], []⟩ ⟨List.Pairwise.nil, by simp, by simp⟩
  obtain ⟨hpw, hproc, hldr⟩ := hst
  have h8 := addLeaderless_aux
    ((sortedLeaders units).foldl
      (stepLeader (leaderByCommand units) (unitsByCommand units)
        (applyCavalryInference units (divToCorpsBase units))) ⟨[], []⟩).processed
    (unitsByCommand units)
    ((sortedLeaders units).foldl
      (stepLeader (leaderByCommand units) (unitsByCommand units)
        (applyCavalryInference units (divToCorpsBase units))) ⟨[], []⟩).groups
    (unitsByCommand_keys_nodup units) hpw (fun g hg => Or.inl (hproc g hg)) hldr
  constructor
  · exact (List.Perm.pairwise_iff (fun h hEq => h hEq.symm)
      (jsSortBy_perm cmpGroups _)).mpr h8.1
  · intro g hg
    exact h8.2 g (mem_jsSortBy hg)

/-! ### Dictionary and string facts for the cavalry-inference claim -/

theorem upsert_entries {α : Type} (m : List (String × α)) (k : String) (v : α) :
    ∀ e ∈ upsert m k v, e ∈ m ∨ e = (k, v) := by
  induction m with
  | nil => intro e he; simp only [upsert, List.mem_singleton] at he; exact Or.inr he
  | cons e0 rest ih =>
    obtain ⟨k0, v0⟩ := e0
    intro e he
    by_cases hk : k0 = k
    · simp only [upsert, if_pos hk, List.mem_cons] at he
      rcases he with he | he
      · exact Or.inr he
      · exact Or.inl (List.mem_cons_of_mem _ he)
    · simp only [upsert, if_neg hk, List.mem_cons] at he
      rcases he with he | he
      · exact Or.inl (by simp [he])
      · rcases ih e he with h | h
        · exact Or.inl (List.mem_cons_of_mem _ h)
        · exact Or.inr h

theorem mem_of_lookup_some {α : Type} (m : List (String × α)) (k : String) (v : α)
    (h : m.lookup k = some v) : (k, v) ∈ m := by
  induction m with
  | nil => simp [List.lookup] at h
  | cons e rest ih =>
    obtain ⟨k0, v0⟩ := e
    rw [List.lookup_cons] at h
    cases hbeq : (k == k0) with
    | true =>
      simp only [hbeq] at h
      cases h
      have hk : k = k0 := by simpa using hbeq
      simp [hk]
    | false =>
      simp only [hbeq] at h
      exact List.mem_cons_of_mem _ (ih h)

theorem upsert_lookup_self {α : Type} (m : List (String × α)) (k : String) (v : α) :
    (upsert m k v).lookup k = some v := by
  induction m with
  | nil => simp [upsert, List.lookup]
  | cons e rest ih =>
    obtain ⟨k0, v0⟩ := e
    by_cases hk : k0 = k
    · subst hk
      simp [upsert, List.lookup_cons]
    · have hbeq : (k == k0) = false := by
        simp [Ne.symm hk]
      simp only [upsert, if_neg hk, List.lookup_cons, hbeq]
      exact ih

theorem upsert_lookup_ne {α : Type} (m : List (String × α)) (k k2 : String) (v : α)
    (h : k2 ≠ k) : (upsert m k v).lookup k2 = m.lookup k2 := by
  induction m with
  | nil =>
    have hb : (k2 == k) = false := by simp [h]
    simp [upsert, List.lookup, hb]
  | cons e rest ih =>
    obtain ⟨k0, v0⟩ := e
    by_cases hk : k0 = k
    · have hne2 : k2 ≠ k0 := fun he => h (he.trans hk)
      have hb1 : (k2 == k) = false := by simp [h]
      have hb2 : (k2 == k0) = false := by simp [hne2]
      simp only [upsert, if_pos hk, List.lookup_cons, hb1, hb2]
    · simp only [upsert, if_neg hk, List.lookup_cons]
      cases hbeq : (k2 == k0) with
      | true => simp only [hbeq]
      | false =>
        simp only [hbeq]
        exact ih

theorem charsContain_mem (sub : List Char) :
    ∀ t, charsContain sub t = true → ∀ x ∈ sub, x ∈ t := by
  intro t
  induction t with
  | nil =>
    intro h x hx
    simp only [charsContain, List.isEmpty_iff] at h
    subst h
    cases hx
  | cons c rest ih =>
    intro h x hx
    simp only [charsContain, Bool.or_eq_true] at h
    rcases h with h | h
    · have hpref : sub <+: c :: rest := by
        rwa [← List.isPrefixOf_iff_prefix]
      exact hpref.sublist.subset hx
    · exact List.mem_cons_of_mem _ (ih h x hx)

theorem charsEndWith_mem (sub t : List Char) (h : charsEndWith sub t = true) :
    ∀ x ∈ sub, x ∈ t := by
  intro x hx
  unfold charsEndWith at h
  have hpref : sub.reverse <+: t.reverse := by
    rwa [← List.isPrefixOf_iff_prefix]
  have := hpref.sublist.subset (List.mem_reverse.mpr hx)
  exact List.mem_reverse.mp this

theorem isSub_dash_mem (c p : String) (h : isSubordinateCommand c p = true) :
    Char.ofNat 45 ∈ c.data := by
  have hdash : Char.ofNat 45 ∈ ("-" ++ p).data := by
    rw [String.data_append]
    exact List.mem_append_left _ (by decide)
  unfold isSubordinateCommand at h
  simp only [Bool.or_eq_true] at h
  rcases h with h | h
  · exact charsContain_mem _ _ h _ hdash
  · exact charsEndWith_mem _ _ h _ hdash

theorem divToCorpsBase_entries (units : List Unit) :
    ∀ e ∈ divToCorpsBase units, isSubordinateCommand e.1 e.2 = true := by
  unfold divToCorpsBase
  have inner : ∀ (cl : Unit) (dls : List Unit) (m : List (String × String)),
      (∀ e ∈ m, isSubordinateCommand e.1 e.2 = true) →
      ∀ e ∈ dls.foldl
        (fun m2 dl =>
          if isSubordinateCommand dl.command cl.command then upsert m2 dl.command cl.command
          else m2) m, isSubordinateCommand e.1 e.2 = true := by
    intro cl dls
    induction dls with
    | nil => exact fun m h => h
    | cons dl rest ih =>
      intro m h
      simp only [List.foldl_cons]
      by_cases hc : isSubordinateCommand dl.command cl.command
      · rw [if_pos hc]
        refine ih _ ?_
        intro e he
        rcases upsert_entries m _ _ e he with h2 | h2
        · exact h e h2
        · subst h2
          exact hc
      · rw [if_neg hc]
        exact ih m h
  have outer : ∀ (cls : List Unit) (m : List (String × String)),
      (∀ e ∈ m, isSubordinateCommand e.1 e.2 = true) →
      ∀ e ∈ cls.foldl
        (fun m cl =>
          (divLeaders units).foldl
            (fun m2 dl =>
              if isSubordinateCommand dl.command cl.command then upsert m2 dl.command cl.command
              else m2) m) m, isSubordinateCommand e.1 e.2 = true := by
    intro cls
    induction cls with
    | nil => exact fun m h => h
    | cons cl rest ih =>
      intro m h
      simp only [List.foldl_cons]
      exact ih _ (inner cl (divLeaders units) m h)
  exact outer (corpsLeaders units) [] (by simp)

theorem inference_entries (units : List Unit) (base : List (String × String)) :
    ∀ e ∈ applyCavalryInference units base, e ∈ base ∨ e.2 = "Cav" := by
  unfold applyCavalryInference
  cases hf : (corpsLeaders units).find? (fun l => l.command = "Cav") with
  | none => exact fun e he => Or.inl he
  | some cl =>
    have main : ∀ (dls : List Unit) (m : List (String × String)),
        (∀ e ∈ m, e ∈ base ∨ e.2 = "Cav") →
        ∀ e ∈ dls.foldl
          (fun m dl =>
            if (m.lookup dl.command).getD "" ≠ "" then m
            else
              if (((unitsByCommand units).lookup dl.command).getD []).any
                  (fun u => u.type_ = "Cav") then
                upsert m dl.command "Cav"
              else m) m, e ∈ base ∨ e.2 = "Cav" := by
      intro dls
      induction dls with
      | nil => exact fun m h => h
      | cons dl rest ih =>
        intro m h
        simp only [List.foldl_cons]
        by_cases h1 : (m.lookup dl.command).getD "" ≠ ""
        · rw [if_pos h1]
          exact ih m h
        · rw [if_neg h1]
          by_cases h2 : (((unitsByCommand units).lookup dl.command).getD []).any
              (fun u => u.type_ = "Cav")
          · rw [if_pos h2]
            refine ih _ ?_
            intro e he
            rcases upsert_entries m _ _ e he with h3 | h3
            · exact h e h3
            · subst h3
              exact Or.inr rfl
          · rw [if_neg h2]
            exact ih m h
    exact main (divLeaders units) base (fun e he => Or.inl he)

theorem d2c_cav_key_value (units : List Unit) (v : String)
    (h : ("Cav", v) ∈ applyCavalryInference units (divToCorpsBase units)) : v = "Cav" := by
  rcases inference_entries units _ _ h with hbase | hv
  · have hsub := divToCorpsBase_entries units _ hbase
    have hd := isSub_dash_mem "Cav" v hsub
    exact absurd hd (by decide)
  · exact hv

theorem lookup_isSome_after_upsert {α : Type} (m : List (String × α)) (k k2 : String)
    (v : α) (h : (m.lookup k).isSome) : ((upsert m k2 v).lookup k).isSome := by
  by_cases he : k = k2
  · subst he
    rw [upsert_lookup_self]
    rfl
  · rw [upsert_lookup_ne m k2 k v he]
    exact h

theorem leaderByCommand_lookup_isSome (units : List Unit) (l : Unit)
    (hl : l ∈ leadersOf units) (h1 : l.command ≠ "-") (h2 : l.command ≠ "—") :
    ((leaderByCommand units).lookup l.command).isSome := by
  unfold leaderByCommand
  obtain ⟨pre, post, hsplit⟩ := List.append_of_mem hl
  rw [hsplit, List.foldl_append, List.foldl_cons, if_pos ⟨h1, h2⟩]
  have hpres : ∀ (ls : List Unit) (m : List (String × Unit)),
      ((m.lookup l.command).isSome) →
      (((ls.foldl
        (fun m x => if x.command ≠ "-" ∧ x.command ≠ "—" then upsert m x.command x else m)
        m).lookup l.command).isSome) := by
    intro ls
    induction ls with
    | nil => exact fun m h => h
    | cons x rest ih =>
      intro m h
      simp only [List.foldl_cons]
      by_cases hg : x.command ≠ "-" ∧ x.command ≠ "—"
      · rw [if_pos hg]
        exact ih _ (lookup_isSome_after_upsert m l.command x.command x h)
      · rw [if_neg hg]
        exact ih m h
  apply hpres
  rw [upsert_lookup_self]
  rfl

theorem inferP (units : List Unit) (dc : String) :
    ∀ (dls : List Unit) (m : List (String × String)),
      ((m.lookup dc).getD "" = "" ∨ m.lookup dc = some "Cav") →
      (((dls.foldl (cavInferStep units) m).lookup dc).getD "" = "" ∨
        (dls.foldl (cavInferStep units) m).lookup dc = some "Cav") := by
  intro dls
  induction dls with
  | nil => exact fun m h => h
  | cons dl rest ih =>
    intro m h
    simp only [List.foldl_cons, cavInferStep]
    by_cases h1 : (m.lookup dl.command).getD "" ≠ ""
    · rw [if_pos h1]
      exact ih m h
    · rw [if_neg h1]
      by_cases h2 : (((unitsByCommand units).lookup dl.command).getD []).any
          (fun u => u.type_ = "Cav")
      · rw [if_pos h2]
        refine ih _ ?_
        by_cases he : dl.command = dc
        · subst he
          rw [upsert_lookup_self]
          exact Or.inr rfl
        · rw [upsert_lookup_ne m dl.command dc "Cav" (Ne.symm he)]
          exact h
      · rw [if_neg h2]
        exact ih m h

theorem inferQ (units : List Unit) (dc : String) :
    ∀ (dls : List Unit) (m : List (String × String)),
      m.lookup dc = some "Cav" →
      (dls.foldl (cavInferStep units) m).lookup dc = some "Cav" := by
  intro dls
  induction dls with
  | nil => exact fun m h => h
  | cons dl rest ih =>
    intro m h
    simp only [List.foldl_cons, cavInferStep]
    by_cases h1 : (m.lookup dl.command).getD "" ≠ ""
    · rw [if_pos h1]
      exact ih m h
    · rw [if_neg h1]
      by_cases he : dl.command = dc
      · exfalso
        apply h1
        rw [he, h]
        simp
      · by_cases h2 : (((unitsByCommand units).lookup dl.command).getD []).any
            (fun u => u.type_ = "Cav")
        · rw [if_pos h2]
          refine ih _ ?_
          rw [upsert_lookup_ne m dl.command dc "Cav" (Ne.symm he)]
          exact h
        · rw [if_neg h2]
          exact ih m h

theorem inference_lookup_cav (units : List Unit) (dc : String)
    (hfind : ((corpsLeaders units).find? (fun l => l.command = "Cav")).isSome)
    (d : Unit) (hd : d ∈ divLeaders units) (hdc : d.command = dc)
    (hbase : ((divToCorpsBase units).lookup dc).getD "" = "")
    (hcav : (((unitsByCommand units).lookup dc).getD []).any
      (fun u => u.type_ = "Cav") = true) :
    (applyCavalryInference units (divToCorpsBase units)).lookup dc = some "Cav" := by
  unfold applyCavalryInference
  obtain ⟨cl, hcl⟩ := Option.isSome_iff_exists.mp hfind
  rw [hcl]
  show ((divLeaders units).foldl (cavInferStep units)
    (divToCorpsBase units)).lookup dc = some "Cav"
  obtain ⟨pre, post, hsplit⟩ := List.append_of_mem hd
  rw [hsplit, List.foldl_append, List.foldl_cons]
  apply inferQ
  have hPre := inferP units dc pre (divToCorpsBase units) (Or.inl hbase)
  simp only [cavInferStep]
  rcases hPre with h | h
  · rw [if_neg (by rw [hdc]; simpa using h), if_pos (by rw [hdc]; exact hcav), hdc,
      upsert_lookup_self]
  · rw [if_pos (by rw [hdc, h]; simp)]
    exact h


theorem bds_processed_sub (lByC : List (String × Unit)) (uByC : List (String × List Unit))
    (parentCmd : String) :
    ∀ (cmds : List String) (pr : List String) (x : String),
      x ∈ (buildDivSubgroups lByC uByC parentCmd cmds pr).2 → x ∈ pr ∨ x ∈ cmds := by
  intro cmds
  induction cmds with
  | nil => intro pr x hx; exact Or.inl hx
  | cons dc rest ih =>
    intro pr x hx
    cases hdl : lByC.lookup dc with
    | none =>
      simp only [buildDivSubgroups, hdl] at hx
      rcases ih pr x hx with h | h
      · exact Or.inl h
      · exact Or.inr (List.mem_cons_of_mem _ h)
    | some dl =>
      simp only [buildDivSubgroups, hdl] at hx
      rcases ih (dc :: pr) x hx with h | h
      · rcases List.mem_cons.mp h with h | h
        · exact Or.inr (h ▸ List.mem_cons_self _ _)
        · exact Or.inl h
      · exact Or.inr (List.mem_cons_of_mem _ h)

theorem bds_mem_subgroup (lByC : List (String × Unit)) (uByC : List (String × List Unit))
    (parentCmd : String) :
    ∀ (cmds : List String) (pr : List String) (dc : String), dc ∈ cmds →
      (lByC.lookup dc).isSome →
      ∃ sg ∈ (buildDivSubgroups lByC uByC parentCmd cmds pr).1, sg.commandCode = dc := by
  intro cmds
  induction cmds with
  | nil => intro pr dc hdc; cases hdc
  | cons dc0 rest ih =>
    intro pr dc hdc hsome
    rcases List.mem_cons.mp hdc with heq | hmem
    · subst heq
      obtain ⟨dl, hdl⟩ := Option.isSome_iff_exists.mp hsome
      simp only [buildDivSubgroups, hdl]
      exact ⟨_, List.mem_cons_self _ _, rfl⟩
    · cases hdl : lByC.lookup dc0 with
      | none =>
        simp only [buildDivSubgroups, hdl]
        exact ih pr dc hmem hsome
      | some dl =>
        simp only [buildDivSubgroups, hdl]
        obtain ⟨sg, hsg, hcode⟩ := ih (dc0 :: pr) dc hmem hsome
        exact ⟨sg, List.mem_cons_of_mem _ hsg, hcode⟩

theorem collect_processed_sub (lByC : List (String × Unit)) (cmd : String) :
    ∀ (es : List (String × List Unit)) (pr : List String) (x : String),
      x ∈ (collectSubordinateUnits lByC cmd es pr).2 →
      x ∈ pr ∨ lByC.lookup x = none := by
  intro es
  induction es with
  | nil => intro pr x hx; exact Or.inl hx
  | cons e rest ih =>
    intro pr x hx
    obtain ⟨otherCmd, otherUnits⟩ := e
    by_cases hc : isSubordinateCommand otherCmd cmd ∧ (lByC.lookup otherCmd).isNone
    · simp only [collectSubordinateUnits, if_pos hc] at hx
      rcases ih (otherCmd :: pr) x hx with h | h
      · rcases List.mem_cons.mp h with h | h
        · subst h
          exact Or.inr (Option.isNone_iff_eq_none.mp hc.2)
        · exact Or.inl h
      · exact Or.inr h
    · simp only [collectSubordinateUnits, if_neg hc] at hx
      exact ih pr x hx

theorem stepLeader_groups_mono (lByC : List (String × Unit))
    (uByC : List (String × List Unit)) (d2c : List (String × String))
    (st : BuildState) (l : Unit) (g : CommandGroup) (hg : g ∈ st.groups) :
    g ∈ (stepLeader lByC uByC d2c st l).groups := by
  simp only [stepLeader]
  split_ifs <;>
    first
      | exact hg
      | exact List.mem_append_left _ hg

theorem foldl_stepLeader_groups_mono (lByC : List (String × Unit))
    (uByC : List (String × List Unit)) (d2c : List (String × String))
    (leaders : List Unit) :
    ∀ (st : BuildState) (g : CommandGroup), g ∈ st.groups →
      g ∈ (leaders.foldl (stepLeader lByC uByC d2c) st).groups := by
  induction leaders with
  | nil => exact fun st g h => h
  | cons l rest ih =>
    intro st g h
    exact ih _ g (stepLeader_groups_mono lByC uByC d2c st l g h)

theorem addLeaderless_groups_mono (st : BuildState) (uByC : List (String × List Unit))
    (g : CommandGroup) (hg : g ∈ st.groups) : g ∈ addLeaderlessGroups st uByC := by
  unfold addLeaderlessGroups
  have main : ∀ (es : List (String × List Unit)) (gs : List CommandGroup), g ∈ gs →
      g ∈ es.foldl
        (fun gs p =>
          if p.1 ∈ st.processed ∨ p.2 = [] then gs
          else gs ++
            [{ leader := none
               commandCode := p.1
               displayName := if p.1 = "-" ∨ p.1 = "—" then "Independent" else p.1
               size := ""
               units := p.2
               subgroups := [] }]) gs := by
    intro es
    induction es with
    | nil => exact fun gs h => h
    | cons e rest ih =>
      intro gs h
      simp only [List.foldl_cons]
      by_cases hc : e.1 ∈ st.processed ∨ e.2 = []
      · rw [if_pos hc]
        exact ih gs h
      · rw [if_neg hc]
        exact ih _ (List.mem_append_left _ h)
  exact main uByC st.groups hg

theorem addLeaderless_groups_source (st : BuildState) (uByC : List (String × List Unit))
    (g : CommandGroup) (hg : g ∈ addLeaderlessGroups st uByC) :
    g ∈ st.groups ∨ g.leader = none := by
  unfold addLeaderlessGroups at hg
  have main : ∀ (es : List (String × List Unit)) (gs : List CommandGroup),
      g ∈ es.foldl
        (fun gs p =>
          if p.1 ∈ st.processed ∨ p.2 = [] then gs
          else gs ++
            [{ leader := none
               commandCode := p.1
               displayName := if p.1 = "-" ∨ p.1 = "—" then "Independent" else p.1
               size := ""
               units := p.2
               subgroups := [] }]) gs →
      g ∈ gs ∨ g.leader = none := by
    intro es
    induction es with
    | nil => exact fun gs h => Or.inl h
    | cons e rest ih =>
      intro gs h
      simp only [List.foldl_cons] at h
      by_cases hc : e.1 ∈ st.processed ∨ e.2 = []
      · rw [if_pos hc] at h
        exact ih gs h
      · rw [if_neg hc] at h
        rcases ih _ h with h2 | h2
        · rcases List.mem_append.mp h2 with h3 | h3
          · exact Or.inl h3
          · simp only [List.mem_singleton] at h3
            subst h3
            exact Or.inr rfl
        · exact Or.inr h2
  exact main uByC st.groups hg

theorem stepLeader_processed_sub (lByC : List (String × Unit))
    (uByC : List (String × List Unit)) (d2c : List (String × String))
    (st : BuildState) (l : Unit) (x : String)
    (hx : x ∈ (stepLeader lByC uByC d2c st l).processed) :
    x ∈ st.processed ∨
      (¬(l.command = "-" ∨ l.command = "—") ∧ ¬(l.size = "Army" ∨ l.size = "District") ∧
        (x = l.command ∨ (x, l.command) ∈ d2c ∨ lByC.lookup x = none)) := by
  simp only [stepLeader] at hx
  split_ifs at hx with h1 h2 h3 h4 h5 h6
  · exact Or.inl hx
  · exact Or.inl hx
  · exact Or.inl hx
  · -- corps branch
    rcases bds_processed_sub lByC uByC l.command _ _ x hx with h | h
    · rcases List.mem_cons.mp h with h | h
      · exact Or.inr ⟨h1, h2, Or.inl h⟩
      · exact Or.inl h
    · obtain ⟨p, hp, hpx⟩ := List.mem_map.mp h
      obtain ⟨p1, p2⟩ := p
      have hflt := List.mem_filter.mp hp
      have h21 : p2 = l.command := by simpa using hflt.2
      simp only at hpx
      refine Or.inr ⟨h1, h2, Or.inr (Or.inl ?_)⟩
      subst hpx
      subst h21
      exact hflt.1
  · -- div skip
    rcases List.mem_cons.mp hx with h | h
    · exact Or.inr ⟨h1, h2, Or.inl h⟩
    · exact Or.inl h
  · -- standard push
    rcases collect_processed_sub lByC l.command _ _ x hx with h | h
    · rcases List.mem_cons.mp h with h | h
      · exact Or.inr ⟨h1, h2, Or.inl h⟩
      · exact Or.inl h
    · exact Or.inr ⟨h1, h2, Or.inr (Or.inr h)⟩
  · -- standard no push
    rcases collect_processed_sub lByC l.command _ _ x hx with h | h
    · rcases List.mem_cons.mp h with h | h
      · exact Or.inr ⟨h1, h2, Or.inl h⟩
      · exact Or.inl h
    · exact Or.inr ⟨h1, h2, Or.inr (Or.inr h)⟩

theorem find_first {α : Type} (p : α → Bool) (l : List α) (h : ∃ x ∈ l, p x = true) :
    ∃ pre x post, l = pre ++ x :: post ∧ p x = true ∧ ∀ y ∈ pre, p y = false := by
  induction l with
  | nil => obtain ⟨x, hx, _⟩ := h; cases hx
  | cons a t ih =>
    by_cases ha : p a = true
    · exact ⟨[], a, t, rfl, ha, by simp⟩
    · obtain ⟨x, hx, hpx⟩ := h
      rcases List.mem_cons.mp hx with heq | hmem
      · exact absurd (heq ▸ hpx) ha
      · obtain ⟨pre, x2, post, hdec, hp2, hpre⟩ := ih ⟨x, hmem, hpx⟩
        refine ⟨a :: pre, x2, post, by simp [hdec], hp2, ?_⟩
        intro y hy
        rcases List.mem_cons.mp hy with heq | hmem2
        · subst heq
          simpa using ha
        · exact hpre y hmem2

theorem sortedLeaders_pairwise (units : List Unit) :
    (sortedLeaders units).Pairwise
      (fun a b => sizePriority a.size ≤ sizePriority b.size) := by
  unfold sortedLeaders
  refine @jsSortBy_pairwise Unit leaderCmp
    (fun a b => sizePriority a.size ≤ sizePriority b.size)
    (fun a b c h1 h2 => Nat.le_trans h1 h2) (leadersOf units) ?_ ?_
  · intro a _ b _ hle
    unfold leaderCmp at hle
    by_cases he : sizePriority a.size = sizePriority b.size
    · exact le_of_eq he
    · rw [if_neg he] at hle
      omega
  · intro a _ b _ hnle
    unfold leaderCmp at hnle
    by_cases he : sizePriority a.size = sizePriority b.size
    · exact le_of_eq he.symm
    · rw [if_neg he] at hnle
      omega

theorem sizePriority_le_two (s : String) (h : sizePriority s ≤ 2) :
    s = "Army" ∨ s = "District" ∨ s = "Corps" := by
  unfold sizePriority at h
  split_ifs at h with h1 h2 h3 h4 h5
  · exact Or.inl h1
  · exact Or.inr (Or.inl h2)
  · exact Or.inr (Or.inr h3)
  · omega
  · omega
  · omega

theorem step_keeps_cav_unprocessed (lByC : List (String × Unit))
    (uByC : List (String × List Unit)) (d2c : List (String × String))
    (st : BuildState) (y : Unit)
    (hCavL : (lByC.lookup "Cav").isSome)
    (hd2c : ∀ v, ("Cav", v) ∈ d2c → v = "Cav")
    (hy : ¬(y.size = "Corps" ∧ y.command = "Cav"))
    (hyp : sizePriority y.size ≤ 2)
    (h : "Cav" ∉ st.processed) :
    "Cav" ∉ (stepLeader lByC uByC d2c st y).processed := by
  intro hmem
  rcases stepLeader_processed_sub lByC uByC d2c st y "Cav" hmem with h1 | ⟨hns, hnad, h2⟩
  · exact h h1
  · have hcorps : y.size = "Corps" := by
      rcases sizePriority_le_two y.size hyp with hs | hs | hs
      · exact absurd (Or.inl hs) hnad
      · exact absurd (Or.inr hs) hnad
      · exact hs
    rcases h2 with h2 | h2 | h2
    · exact hy ⟨hcorps, h2.symm⟩
    · exact hy ⟨hcorps, hd2c y.command h2⟩
    · rw [h2] at hCavL
      cases hCavL

theorem foldl_keeps_cav_unprocessed (lByC : List (String × Unit))
    (uByC : List (String × List Unit)) (d2c : List (String × String))
    (hCavL : (lByC.lookup "Cav").isSome)
    (hd2c : ∀ v, ("Cav", v) ∈ d2c → v = "Cav") :
    ∀ (ys : List Unit) (st : BuildState),
      (∀ y ∈ ys, sizePriority y.size ≤ 2 ∧ ¬(y.size = "Corps" ∧ y.command = "Cav")) →
      "Cav" ∉ st.processed →
      "Cav" ∉ (ys.foldl (stepLeader lByC uByC d2c) st).processed := by
  intro ys
  induction ys with
  | nil => exact fun st _ h => h
  | cons y rest ih =>
    intro st hys h
    simp only [List.foldl_cons]
    refine ih _ (fun y2 hy2 => hys y2 (List.mem_cons_of_mem _ hy2)) ?_
    have hy := hys y (List.mem_cons_self _ _)
    exact step_keeps_cav_unprocessed lByC uByC d2c st y hCavL hd2c hy.2 hy.1 h

theorem step_at_cav (lByC : List (String × Unit)) (uByC : List (String × List Unit))
    (d2c : List (String × String)) (st : BuildState) (cav : Unit)
    (hsz : cav.size = "Corps") (hcmd : cav.command = "Cav")
    (hnp : "Cav" ∉ st.processed) (dc : String) (hdc_mem : (dc, "Cav") ∈ d2c)
    (hdl : (lByC.lookup dc).isSome) :
    ∃ g ∈ (stepLeader lByC uByC d2c st cav).groups, g.commandCode = "Cav" ∧
      ∃ sg ∈ g.subgroups, sg.commandCode = dc := by
  have hdcmds : dc ∈ (d2c.filter (fun p => p.2 = cav.command)).map (fun p => p.1) :=
    List.mem_map.mpr ⟨(dc, "Cav"),
      List.mem_filter.mpr ⟨hdc_mem, by simp [hcmd]⟩, rfl⟩
  simp only [stepLeader]
  rw [if_neg (by rw [hcmd]; decide), if_neg (by rw [hsz]; decide),
    if_neg (by rw [hcmd]; exact hnp), if_pos ⟨hsz, List.ne_nil_of_mem hdcmds⟩]
  refine ⟨_, List.mem_append_right _ (List.mem_singleton.mpr rfl), hcmd, ?_⟩
  exact bds_mem_subgroup lByC uByC cav.command _ _ dc hdcmds hdl

theorem step_preserves_no_div (lByC : List (String × Unit))
    (uByC : List (String × List Unit)) (d2c : List (String × String))
    (st : BuildState) (l : Unit) (dc : String)
    (hdcL : (d2c.lookup dc).getD "" ≠ "")
    (h : ∀ g ∈ st.groups, g.commandCode = dc → ∀ l2, g.leader = some l2 →
      l2.size ≠ "Div") :
    ∀ g ∈ (stepLeader lByC uByC d2c st l).groups, g.commandCode = dc →
      ∀ l2, g.leader = some l2 → l2.size ≠ "Div" := by
  simp only [stepLeader]
  split_ifs with h1 h2 h3 h4 h5 h6
  · exact h
  · exact h
  · exact h
  · -- corps branch: the pushed leader has size "Corps"
    intro g hg hcode l2 hl2
    rcases List.mem_append.mp hg with hg | hg
    · exact h g hg hcode l2 hl2
    · simp only [List.mem_singleton] at hg
      subst hg
      cases hl2
      rw [h4.1]
      decide
  · exact h
  · -- standard push: a Div-size leader reaches here only when its code
    -- is unmapped in divToCorps, hence differs from dc
    intro g hg hcode l2 hl2
    rcases List.mem_append.mp hg with hg | hg
    · exact h g hg hcode l2 hl2
    · simp only [List.mem_singleton] at hg
      subst hg
      cases hl2
      intro hdiv
      have hcode2 : l.command = dc := hcode
      exact h5 ⟨hdiv, by rw [hcode2]; exact hdcL⟩
  · exact h

theorem foldl_preserves_no_div (lByC : List (String × Unit))
    (uByC : List (String × List Unit)) (d2c : List (String × String))
    (dc : String) (hdcL : (d2c.lookup dc).getD "" ≠ "") :
    ∀ (ys : List Unit) (st : BuildState),
      (∀ g ∈ st.groups, g.commandCode = dc → ∀ l2, g.leader = some l2 →
        l2.size ≠ "Div") →
      ∀ g ∈ (ys.foldl (stepLeader lByC uByC d2c) st).groups, g.commandCode = dc →
        ∀ l2, g.leader = some l2 → l2.size ≠ "Div" := by
  intro ys
  induction ys with
  | nil => exact fun st h => h
  | cons y rest ih =>
    intro st h
    exact ih _ (step_preserves_no_div lByC uByC d2c st y dc hdcL h)

/-- C4 (amended): when a Corps-level leader with code exactly `"Cav"`
exists, every Div-level leader not already (truthily) mapped by the
dash rule whose code's units contain a `"Cav"`-typed unit is mapped to
the `"Cav"` corps; *provided the division's code has an entry in
`leaderByCommand`* (i.e. some leader carries that code and it is not a
none-sentinel — see the counterexample for why this proviso is needed),
a subgroup bearing the division's code is emitted under a top-level
group with code `"Cav"`, and no top-level group with the division's
code is led by a Div-size leader (the division itself is never emitted
as its own top-level group). -/
theorem cavalry_inference_mapped_and_emitted (units : List Unit) (d : Unit) (dc : String)
    (hcorps : ∃ cl ∈ corpsLeaders units, cl.command = "Cav")
    (hd : d ∈ divLeaders units) (hdc : d.command = dc)
    (hNotDash : ((divToCorpsBase units).lookup dc).getD "" = "")
    (hCavUnit : (((unitsByCommand units).lookup dc).getD []).any
      (fun u => u.type_ = "Cav") = true)
    (hLdrEntry : ((leaderByCommand units).lookup dc).isSome) :
    (applyCavalryInference units (divToCorpsBase units)).lookup dc = some "Cav" ∧
      (∃ g ∈ buildCommandHierarchy units, g.commandCode = "Cav" ∧
        ∃ sg ∈ g.subgroups, sg.commandCode = dc) ∧
      (∀ g ∈ buildCommandHierarchy units, g.commandCode = dc →
        ∀ l, g.leader = some l → l.size ≠ "Div") := by
  obtain ⟨cl, hclmem, hclcmd⟩ := hcorps
  have hclsz : cl.size = "Corps" := by
    simpa using (List.mem_filter.mp hclmem).2
  have hfind : ((corpsLeaders units).find? (fun l => l.command = "Cav")).isSome :=
    List.find?_isSome.mpr ⟨cl, hclmem, by simp [hclcmd]⟩
  have h1 : (applyCavalryInference units (divToCorpsBase units)).lookup dc = some "Cav" :=
    inference_lookup_cav units dc hfind d hd hdc hNotDash hCavUnit
  have hdc_mem : (dc, "Cav") ∈ applyCavalryInference units (divToCorpsBase units) :=
    mem_of_lookup_some _ _ _ h1
  have hclL : cl ∈ leadersOf units :=
    mem_jsSortBy (List.mem_filter.mp hclmem).1
  have hCavL : ((leaderByCommand units).lookup "Cav").isSome := by
    have h2 := leaderByCommand_lookup_isSome units cl hclL
      (by rw [hclcmd]; decide) (by rw [hclcmd]; decide)
    rwa [hclcmd] at h2
  have hd2cCav : ∀ v, ("Cav", v) ∈ applyCavalryInference units (divToCorpsBase units) →
      v = "Cav" := d2c_cav_key_value units
  have hex : ∃ x ∈ sortedLeaders units,
      (decide (x.size = "Corps" ∧ x.command = "Cav")) = true :=
    ⟨cl, (List.mem_filter.mp hclmem).1, by simp [hclcmd, hclsz]⟩
  obtain ⟨pre, cav, post, hdec, hpcav, hpre⟩ := find_first _ _ hex
  have hcavsz : cav.size = "Corps" := (of_decide_eq_true hpcav).1
  have hcavcmd : cav.command = "Cav" := (of_decide_eq_true hpcav).2
  have hsorted := sortedLeaders_pairwise units
  rw [hdec] at hsorted
  have hpre2 : ∀ y ∈ pre,
      sizePriority y.size ≤ 2 ∧ ¬(y.size = "Corps" ∧ y.command = "Cav") := by
    intro y hy
    refine ⟨?_, ?_⟩
    · have h3 := (List.pairwise_append.mp hsorted).2.2 y hy cav (List.mem_cons_self _ _)
      rw [hcavsz] at h3
      simpa [sizePriority] using h3
    · exact of_decide_eq_false (hpre y hy)
  have hbuild : buildCommandHierarchy units =
      jsSortBy cmpGroups (addLeaderlessGroups
        ((sortedLeaders units).foldl
          (stepLeader (leaderByCommand units) (unitsByCommand units)
            (applyCavalryInference units (divToCorpsBase units))) ⟨[], []⟩)
        (unitsByCommand units)) := rfl
  have hfull : (sortedLeaders units).foldl
      (stepLeader (leaderByCommand units) (unitsByCommand units)
        (applyCavalryInference units (divToCorpsBase units))) ⟨[], []⟩ =
      post.foldl
        (stepLeader (leaderByCommand units) (unitsByCommand units)
          (applyCavalryInference units (divToCorpsBase units)))
        (stepLeader (leaderByCommand units) (unitsByCommand units)
          (applyCavalryInference units (divToCorpsBase units))
          (pre.foldl
            (stepLeader (leaderByCommand units) (unitsByCommand units)
              (applyCavalryInference units (divToCorpsBase units))) ⟨[], []⟩) cav) := by
    rw [hdec, List.foldl_append, List.foldl_cons]
  have hnp := foldl_keeps_cav_unprocessed (leaderByCommand units) (unitsByCommand units)
    (applyCavalryInference units (divToCorpsBase units)) hCavL hd2cCav pre ⟨[], []⟩
    hpre2 (by simp)
  obtain ⟨g, hgmem, hgcode, hsg⟩ := step_at_cav (leaderByCommand units)
    (unitsByCommand units) (applyCavalryInference units (divToCorpsBase units)) _ cav
    hcavsz hcavcmd hnp dc hdc_mem hLdrEntry
  refine ⟨h1, ⟨g, ?_, hgcode, hsg⟩, ?_⟩
  · rw [hbuild]
    refine (jsSortBy_perm cmpGroups _).mem_iff.mpr ?_
    refine addLeaderless_groups_mono _ _ g ?_
    rw [hfull]
    exact foldl_stepLeader_groups_mono _ _ _ post _ g hgmem
  · intro g2 hg2 hcode l2 hl2
    rw [hbuild] at hg2
    have hg2b := (jsSortBy_perm cmpGroups _).mem_iff.mp hg2
    rcases addLeaderless_groups_source _ _ g2 hg2b with hsrc | hnone
    · have hdcL : ((applyCavalryInference units (divToCorpsBase units)).lookup dc).getD ""
          ≠ "" := by
        rw [h1]
        decide
      exact foldl_preserves_no_div (leaderByCommand units) (unitsByCommand units)
        (applyCavalryInference units (divToCorpsBase units)) dc hdcL
        (sortedLeaders units) ⟨[], []⟩ (by simp) g2 hsrc hcode l2 hl2
    · rw [hnone] at hl2
      cases hl2

/-- C4 witness: cavalry corps `"Cav"`, division `"WL"` with a cavalry
unit, and a leader entry for `"WL"`. -/
theorem cavalry_inference_mapped_and_emitted_witness :
    ((∃ cl ∈ corpsLeaders c4WitnessInput, cl.command = "Cav") ∧
      mkLdr "D" "Div" "WL" ∈ divLeaders c4WitnessInput ∧
      (mkLdr "D" "Div" "WL").command = "WL" ∧
      ((divToCorpsBase c4WitnessInput).lookup "WL").getD "" = "" ∧
      (((unitsByCommand c4WitnessInput).lookup "WL").getD []).any
        (fun u => u.type_ = "Cav") = true ∧
      ((leaderByCommand c4WitnessInput).lookup "WL").isSome) ∧
      ((applyCavalryInference c4WitnessInput (divToCorpsBase c4WitnessInput)).lookup "WL" =
          some "Cav" ∧
        (∃ g ∈ buildCommandHierarchy c4WitnessInput, g.commandCode = "Cav" ∧
          ∃ sg ∈ g.subgroups, sg.commandCode = "WL") ∧
        (∀ g ∈ buildCommandHierarchy c4WitnessInput, g.commandCode = "WL" →
          ∀ l, g.leader = some l → l.size ≠ "Div")) :=
  ⟨⟨by decide, by decide, by decide, by decide, by decide, by decide⟩,
    cavalry_inference_mapped_and_emitted c4WitnessInput (mkLdr "D" "Div" "WL") "WL"
      (by decide) (by decide) (by decide) (by decide) (by decide) (by decide)⟩

end Roster
